import Mathlib

/-!
# Verification of the grid pathfinding engine (`src/main.py`)

This file is a shallow embedding of the core of the pathfinding program:
the grid model, the two heuristics, Greedy Best-First search, A* search,
path reconstruction, the agent state machine and the replanning
coordinator, together with proofs about them.

Modelling conventions:
* Python cells are identified by their `(row, col)` position; cell
  attributes (`cell_type`, `g`, `h`, `f`, `parent`, flags) become
  functions from positions.
* `float('inf')` values of `g` become `Option ℕ` with `none` playing the
  role of `+∞` (all finite values the program ever stores in `g` are the
  naturals `0, 1, 2, …`).
* The heuristic values and priority keys are floats in the source; every
  key the program ever builds has the exact value `gpart + √hsq` with
  natural `gpart` and `hsq` (`h` is `√hsq` for both heuristics).  We
  represent a key by the pair `(gpart, hsq)` and compare keys by the real
  value `gpart + Real.sqrt hsq`, implemented by an exact integer
  procedure.  This idealises float comparison as real comparison.
* `heapq` pops the least tuple `(key, counter, cell)`; counters are
  distinct, so the popped entry is the unique lexicographic minimum.  We
  model the heap as the list of entries and pop the minimum.
* The `while heap:` loops terminate because a global measure decreases;
  the embedding uses explicit fuel and we prove the canonical fuel is
  never exhausted.
-/

set_option maxHeartbeats 1000000

namespace PathSpec

/-! ## Cell kinds and positions -/

/-- Cell kinds, `EMPTY/WALL/START/GOAL` in the source. -/
inductive CellKind where
  | empty
  | wall
  | start
  | goal
deriving DecidableEq, Repr

/-- A cell position `(row, col)`. -/
abbrev Pos := ℕ × ℕ

/-! ## The grid

`Grid` keeps the static data: the dimensions, the kind of every cell and
the distinguished start/goal cells (`start_cell` / `goal_cell` in the
source).  The per-cell search scratch fields live in `SState` below. -/

structure Grid where
  rows : ℕ
  cols : ℕ
  kind : Pos → CellKind
  start : Pos
  goal : Pos

/-- Bounds check of `Grid.get`. -/
def Grid.inB (g : Grid) (p : Pos) : Prop := p.1 < g.rows ∧ p.2 < g.cols

instance (g : Grid) (p : Pos) : Decidable (g.inB p) := by
  unfold Grid.inB; infer_instance

/-- `Grid.get`: bounds-checked lookup over integer coordinates. -/
def Grid.get (g : Grid) (r c : ℤ) : Option Pos :=
  if 0 ≤ r ∧ r < g.rows ∧ 0 ≤ c ∧ c < g.cols then some (r.toNat, c.toNat) else none

/-- `is_walkable`: every kind except `wall`. -/
def Grid.walkable (g : Grid) (p : Pos) : Prop := g.kind p ≠ CellKind.wall

instance (g : Grid) (p : Pos) : Decidable (g.walkable p) := by
  unfold Grid.walkable; infer_instance

/-- `Grid.neighbors`: the up-to-4 orthogonally adjacent, in-bounds,
walkable cells, in the fixed order up, down, left, right. -/
def Grid.neighbors (g : Grid) (p : Pos) : List Pos :=
  [((-1 : ℤ), (0 : ℤ)), (1, 0), (0, -1), (0, 1)].filterMap fun d =>
    match g.get ((p.1 : ℤ) + d.1) ((p.2 : ℤ) + d.2) with
    | some q => if g.kind q ≠ CellKind.wall then some q else none
    | none => none

/-- Row-major list of all in-bounds positions (`for row in self.cells for
cell in row`). -/
def Grid.allCells (g : Grid) : List Pos :=
  (List.range g.rows).flatMap fun r => (List.range g.cols).map fun c => (r, c)

/-- The in-bounds positions as a finset. -/
def Grid.posFinset (g : Grid) : Finset Pos :=
  Finset.range g.rows ×ˢ Finset.range g.cols

/-- Number of cells of the grid. -/
def Grid.size (g : Grid) : ℕ := g.rows * g.cols

/-- Well-formedness: the invariant the source maintains by construction
(start and goal exist, are in bounds, and carry their kinds). -/
structure Grid.WF (g : Grid) : Prop where
  startIn : g.inB g.start
  goalIn : g.inB g.goal
  kindStart : g.kind g.start = CellKind.start
  kindGoal : g.kind g.goal = CellKind.goal

/-! ### Basic facts about the grid -/

/-! ## Heuristics

Both heuristics of the source return `√hsq` for a natural number `hsq`:
Manhattan returns `|Δrow| + |Δcol| = √((|Δrow| + |Δcol|)²)` and Euclidean
returns `√(Δrow² + Δcol²)`.  We store the square. -/

/-- The two heuristics of the `HEURISTICS` table. -/
inductive Heur where
  | manhattan
  | euclidean
deriving DecidableEq, Repr

/-- `|a - b|` over naturals. -/
def natDist (a b : ℕ) : ℕ := ((a : ℤ) - b).natAbs

/-- Manhattan distance (the exact value of `heuristic_manhattan`). -/
def mdist (p q : Pos) : ℕ := natDist p.1 q.1 + natDist p.2 q.2

/-- The square of the heuristic value: `heuristic_manhattan a b = √(hsq manhattan a b)`
and `heuristic_euclidean a b = √(hsq euclidean a b)`. -/
def hsq : Heur → Pos → Pos → ℕ
  | .manhattan, p, q => mdist p q * mdist p q
  | .euclidean, p, q => natDist p.1 q.1 * natDist p.1 q.1 + natDist p.2 q.2 * natDist p.2 q.2

/-! ## Priority keys

Every priority key the program builds is `gpart + √sq` for naturals
`gpart, sq` (for A* `gpart` is the `g` value and `√sq` the heuristic; for
Greedy BFS `gpart = 0`).  Keys are compared as real numbers; the
comparison is implemented exactly in integer arithmetic. -/

/-- A priority key `(gpart, sq)` denoting the real number `gpart + √sq`. -/
abbrev Key := ℕ × ℕ

/-- The real value of a key. -/
noncomputable def Key.val (k : Key) : ℝ := k.1 + Real.sqrt k.2

/-- Compare `√e` with `d + √e'` exactly. -/
def sqCmp (e d e' : ℕ) : Ordering :=
  if e < d * d + e' then .lt
  else compare ((e - (d * d + e')) * (e - (d * d + e'))) (4 * (d * d) * e')

/-- Compare two key values exactly. -/
def Key.cmp (k₁ k₂ : Key) : Ordering :=
  if k₁.1 ≤ k₂.1 then sqCmp k₁.2 (k₂.1 - k₁.1) k₂.2
  else (sqCmp k₂.2 (k₁.1 - k₂.1) k₁.2).swap

/-! ## Heap entries

`heapq` holds tuples `(key, counter, cell)` ordered lexicographically;
`heappop` removes the least tuple.  Counters are pairwise distinct, so
the least tuple is determined by `(key, counter)` and the `Cell.__lt__`
fallback is never consulted. -/

/-- A heap entry `(priorityKey, insertionSequence, cell)`. -/
structure Entry where
  key : Key
  counter : ℕ
  pos : Pos
deriving DecidableEq, Repr

/-- Strict lexicographic comparison of entries, as Python compares the
tuples `(key, counter, cell)`. -/
def entryLtB (a b : Entry) : Bool :=
  match Key.cmp a.key b.key with
  | .lt => true
  | .gt => false
  | .eq => a.counter < b.counter

/-- The propositional meaning of `entryLtB`. -/
def Entry.Lt (a b : Entry) : Prop :=
  a.key.val < b.key.val ∨ (a.key.val = b.key.val ∧ a.counter < b.counter)

/-- The minimum entry of `e :: l` under the lexicographic order. -/
def minEntry (e : Entry) (l : List Entry) : Entry :=
  l.foldl (fun best x => if entryLtB x best then x else best) e

/-- `heappop`: remove and return the least entry. -/
def popMin (l : List Entry) : Option (Entry × List Entry) :=
  match l with
  | [] => none
  | e :: rest => some (minEntry e rest, (e :: rest).erase (minEntry e rest))

/-! ## `Option ℕ` with `none = +∞`

Python initialises `g` and `f` to `float('inf')`; all finite values ever
stored are naturals.  `none` plays the role of `+∞`. -/

/-- `x < y` with `none = +∞` (as Python float comparison with `inf`). -/
def ogLtB : Option ℕ → Option ℕ → Bool
  | none, _ => false
  | some _, none => true
  | some v, some w => decide (v < w)

/-- `x ≤ y` with `none = +∞`. -/
def ogLeB : Option ℕ → Option ℕ → Bool
  | none, none => true
  | none, some _ => false
  | some _, none => true
  | some v, some w => decide (v ≤ w)

/-! ## Search scratch state

The per-cell scratch fields of `Cell`.  `h` stores the square of the
heuristic value (see `Key`); `f` stores the key of `g + h` (`none` for
the initial `inf`). -/

structure SState where
  g : Pos → Option ℕ
  hsq : Pos → ℕ
  f : Pos → Option Key
  parent : Pos → Option Pos
  inOpen : Pos → Bool
  inClosed : Pos → Bool
  onPath : Pos → Bool

/-- Pointwise update of a cell attribute. -/
def upd {α : Type} (f : Pos → α) (p : Pos) (v : α) : Pos → α :=
  fun q => if q = p then v else f q

/-- `Grid.reset_search_state`: `reset_search` applied to every cell.
Positions outside the grid bounds do not correspond to any Python object,
so the reset state is the canonical all-clear state. -/
def Grid.resetSearchState (_g : Grid) (_s : SState) : SState where
  g := fun _ => none
  hsq := fun _ => 0
  f := fun _ => none
  parent := fun _ => none
  inOpen := fun _ => false
  inClosed := fun _ => false
  onPath := fun _ => false

/-- `SearchResult`. -/
structure SearchResult where
  path : List Pos
  nodesVisited : ℕ
  pathCost : Option ℕ
  found : Bool
deriving DecidableEq, Repr

/-- The fresh `SearchResult()` (cost `0.0`). -/
def SearchResult.init (nodes : ℕ) : SearchResult :=
  ⟨[], nodes, some 0, false⟩

/-! ## Path reconstruction (`_reconstruct_path`) -/

/-- Walk `parent` links; the source's `while node:` loop, with fuel (the
parent chain of any reachable state is acyclic and shorter than the
fuel supplied by callers). -/
def reconAux (s : SState) : ℕ → Pos → List Pos → List Pos
  | 0, p, acc => p :: acc
  | fuel + 1, p, acc =>
    match s.parent p with
    | none => p :: acc
    | some q => reconAux s fuel q (p :: acc)

/-- Mark every cell of the path `on_path`. -/
def markPath (s : SState) (path : List Pos) : SState :=
  path.foldl (fun st c => { st with onPath := upd st.onPath c true }) s

/-- `_reconstruct_path(goal)`: the chain from the origin to `goal`, with
every chain cell marked `on_path`. -/
def reconstructPath (g : Grid) (s : SState) (goalPos : Pos) : List Pos × SState :=
  let path := reconAux s (g.size + 1) goalPos []
  (path, markPath s path)

/-! ## Greedy Best-First search (`greedy_bfs`) -/

structure GreedySt where
  s : SState
  heap : List Entry
  counter : ℕ
  visited : Pos → Bool
  nodes : ℕ

/-- The neighbour-relaxation body of `greedy_bfs`. -/
def greedyRelax (goalPos : Pos) (h : Heur) (cur : Pos)
    (st : GreedySt) (nb : Pos) : GreedySt :=
  if st.visited nb then st
  else
    let newg := (st.s.g cur).map (· + 1)
    let e := hsq h nb goalPos
    let s1 := { st.s with hsq := upd st.s.hsq nb e, f := upd st.s.f nb (some (0, e)) }
    if st.s.inOpen nb = false ∨ ogLtB newg (st.s.g nb) = true then
      { st with
        s := { s1 with
               g := upd s1.g nb newg,
               parent := upd s1.parent nb (some cur),
               inOpen := upd s1.inOpen nb true }
        counter := st.counter + 1
        heap := st.heap ++ [⟨(0, e), st.counter + 1, nb⟩] }
    else { st with s := s1 }

instance (st : GreedySt) (nb : Pos) :
    Decidable (st.s.inOpen nb = false ∨ ogLtB ((st.s.g nb).map (· + 1)) (st.s.g nb) = true) := by
  infer_instance

/-- The `while heap:` loop of `greedy_bfs`. -/
def greedyGo (gr : Grid) (goalPos : Pos) (h : Heur) :
    ℕ → GreedySt → SearchResult × SState
  | 0, st => (SearchResult.init st.nodes, st.s)
  | fuel + 1, st =>
    match popMin st.heap with
    | none => (SearchResult.init st.nodes, st.s)
    | some (ent, rest) =>
      let cur := ent.pos
      if st.visited cur then
        greedyGo gr goalPos h fuel { st with heap := rest }
      else
        let st1 : GreedySt :=
          { st with
            heap := rest
            visited := upd st.visited cur true
            s := { st.s with
                   inOpen := upd st.s.inOpen cur false,
                   inClosed := upd st.s.inClosed cur true }
            nodes := st.nodes + 1 }
        if cur = goalPos then
          let r := reconstructPath gr st1.s goalPos
          (⟨r.1, st1.nodes, r.2.g goalPos, true⟩, r.2)
        else
          greedyGo gr goalPos h fuel
            ((gr.neighbors cur).foldl (greedyRelax goalPos h cur) st1)

/-- The initial state of `greedy_bfs` (before the loop). -/
def greedyInit (s : SState) (startPos goalPos : Pos) (h : Heur) : GreedySt :=
  let e := hsq h startPos goalPos
  { s := { s with
           hsq := upd s.hsq startPos e,
           f := upd s.f startPos (some (0, e)),
           g := upd s.g startPos (some 0),
           inOpen := upd s.inOpen startPos true }
    heap := [⟨(0, e), 0, startPos⟩]
    counter := 0
    visited := fun _ => false
    nodes := 0 }

/-- Fuel sufficient for both search loops (proved below). -/
def searchFuel (g : Grid) : ℕ := (g.size + 2) * (g.size + 5)

/-- `greedy_bfs(grid, start, goal, heuristic_name)`, returning the result
and the final scratch state. -/
def greedyBfs (gr : Grid) (s : SState) (startPos goalPos : Pos) (h : Heur) :
    SearchResult × SState :=
  greedyGo gr goalPos h (searchFuel gr) (greedyInit s startPos goalPos h)

/-! ## A* search (`astar`) -/

structure AStarSt where
  s : SState
  heap : List Entry
  counter : ℕ
  /-- The `expanded` dict: recorded `g` value per finalized position. -/
  expanded : Pos → Option (Option ℕ)
  nodes : ℕ

/-- The neighbour-relaxation body of `astar`.  When `current.g` is `inf`
(`none`), `new_g = inf` and `new_g < nb.g` is false for every `nb.g`, so
nothing happens. -/
def astarRelax (goalPos : Pos) (h : Heur) (cur : Pos)
    (st : AStarSt) (nb : Pos) : AStarSt :=
  match st.s.g cur with
  | none => st
  | some gc =>
    if ogLtB (some (gc + 1)) (st.s.g nb) = true then
      let e := hsq h nb goalPos
      { st with
        s := { st.s with
               g := upd st.s.g nb (some (gc + 1)),
               hsq := upd st.s.hsq nb e,
               f := upd st.s.f nb (some (gc + 1, e)),
               parent := upd st.s.parent nb (some cur),
               inOpen := upd st.s.inOpen nb true,
               inClosed := upd st.s.inClosed nb false }
        counter := st.counter + 1
        heap := st.heap ++ [⟨(gc + 1, e), st.counter + 1, nb⟩] }
    else st

/-- The `while heap:` loop of `astar`: pop the least entry; lazily skip
it when the position was already finalized with no worse a `g`; otherwise
finalize, test for the goal and relax the neighbours. -/
def astarGo (gr : Grid) (goalPos : Pos) (h : Heur) :
    ℕ → AStarSt → SearchResult × SState
  | 0, st => (SearchResult.init st.nodes, st.s)
  | fuel + 1, st =>
    match popMin st.heap with
    | none => (SearchResult.init st.nodes, st.s)
    | some (ent, rest) =>
      let cur := ent.pos
      let skip : Bool :=
        match st.expanded cur with
        | none => false
        | some r => ogLeB r (st.s.g cur)
      if skip then
        astarGo gr goalPos h fuel { st with heap := rest }
      else
        let st1 : AStarSt :=
          { st with
            heap := rest
            expanded := upd st.expanded cur (some (st.s.g cur))
            s := { st.s with
                   inOpen := upd st.s.inOpen cur false,
                   inClosed := upd st.s.inClosed cur true }
            nodes := st.nodes + 1 }
        if cur = goalPos then
          let r := reconstructPath gr st1.s goalPos
          (⟨r.1, st1.nodes, r.2.g goalPos, true⟩, r.2)
        else
          astarGo gr goalPos h fuel
            ((gr.neighbors cur).foldl (astarRelax goalPos h cur) st1)

/-- The initial state of `astar` (before the loop). -/
def astarInit (s : SState) (startPos goalPos : Pos) (h : Heur) : AStarSt :=
  let e := hsq h startPos goalPos
  { s := { s with
           g := upd s.g startPos (some 0),
           hsq := upd s.hsq startPos e,
           f := upd s.f startPos (some (0, e)),
           inOpen := upd s.inOpen startPos true }
    heap := [⟨(0, e), 0, startPos⟩]
    counter := 0
    expanded := fun _ => none
    nodes := 0 }

/-- `astar(grid, start, goal, heuristic_name)`, returning the result and
the final scratch state. -/
def astar (gr : Grid) (s : SState) (startPos goalPos : Pos) (h : Heur) :
    SearchResult × SState :=
  astarGo gr goalPos h (searchFuel gr) (astarInit s startPos goalPos h)

/-! ## Search entry points -/

/-- The closed algorithm enumeration (`"A* Search"` / `"Greedy BFS"`). -/
inductive Algo where
  | astarSearch
  | greedyBFS
deriving DecidableEq, Repr

/-- `run_search`: the initial search from `grid.start_cell` to
`grid.goal_cell`. -/
def runSearch (gr : Grid) (s : SState) (algo : Algo) (h : Heur) : SearchResult × SState :=
  match algo with
  | .astarSearch => astar gr s gr.start gr.goal h
  | .greedyBFS => greedyBfs gr s gr.start gr.goal h

/-- `replan`: reset the scratch state, then search from `current`. -/
def replanSearch (gr : Grid) (s : SState) (cur goalPos : Pos) (algo : Algo) (h : Heur) :
    SearchResult × SState :=
  let s0 := gr.resetSearchState s
  match algo with
  | .astarSearch => astar gr s0 cur goalPos h
  | .greedyBFS => greedyBfs gr s0 cur goalPos h

/-! ## Grid mutation operations -/

/-- `place_wall`: no-op on `Start`/`Goal` and out of bounds. -/
def Grid.placeWall (g : Grid) (p : Pos) : Grid :=
  if g.inB p ∧ g.kind p ≠ CellKind.start ∧ g.kind p ≠ CellKind.goal then
    { g with kind := upd g.kind p CellKind.wall }
  else g

/-- `remove_wall`: only clears a `Wall`. -/
def Grid.removeWall (g : Grid) (p : Pos) : Grid :=
  if g.inB p ∧ g.kind p = CellKind.wall then
    { g with kind := upd g.kind p CellKind.empty }
  else g

/-- `generate_random_maze(density)`: every non-`Start`/`Goal` cell becomes
a wall or empty; `w p` models the draw `random.random() < density`. -/
def Grid.generateRandomMaze (g : Grid) (w : Pos → Bool) : Grid :=
  { g with kind := fun p =>
      if g.inB p then
        if g.kind p = CellKind.start ∨ g.kind p = CellKind.goal then g.kind p
        else if w p then CellKind.wall else CellKind.empty
      else g.kind p }

/-- `full_reset`: clear all non-`Start`/`Goal` cells and reset scratch. -/
def Grid.fullReset (g : Grid) (s : SState) : Grid × SState :=
  ({ g with kind := fun p =>
       if g.inB p ∧ g.kind p ≠ CellKind.start ∧ g.kind p ≠ CellKind.goal then
         CellKind.empty
       else g.kind p },
   g.resetSearchState s)

/-- The candidate list of `spawn_random_obstacle`, in row-major order. -/
def Grid.spawnCandidates (g : Grid) (s : SState) : List Pos :=
  g.allCells.filter fun p =>
    decide (g.kind p = CellKind.empty) && !s.onPath p

/-- `spawn_random_obstacle`: `random.choice` among the candidates is
modelled by an arbitrary index `k`. -/
def Grid.spawnRandomObstacle (g : Grid) (s : SState) (k : ℕ) : Grid × Option Pos :=
  let cand := g.spawnCandidates s
  if hne : cand = [] then (g, none)
  else
    let c := cand.get ⟨k % cand.length, Nat.mod_lt _ (List.length_pos.2 hne)⟩
    ({ g with kind := upd g.kind c CellKind.wall }, some c)

/-- `Grid(rows, cols)`: all cells empty, then start placed at `(0,0)` and
goal at `(rows-1, cols-1)`. -/
def newGrid (rows cols : ℕ) : Grid :=
  { rows := rows
    cols := cols
    kind := upd (upd (fun _ => CellKind.empty) (0, 0) CellKind.start)
      (rows - 1, cols - 1) CellKind.goal
    start := (0, 0)
    goal := (rows - 1, cols - 1) }

/-- The all-clear scratch state of fresh cells. -/
def initS : SState where
  g := fun _ => none
  hsq := fun _ => 0
  f := fun _ => none
  parent := fun _ => none
  inOpen := fun _ => false
  inClosed := fun _ => false
  onPath := fun _ => false

/-! ## The agent -/

structure Agent where
  cell : Option Pos
  path : List Pos
  pathIndex : ℕ
  moving : Bool
  reachedGoal : Bool
  replanning : Bool
deriving DecidableEq, Repr

/-- `Agent()` / `Agent.reset()`. -/
def Agent.reset : Agent :=
  { cell := none, path := [], pathIndex := 0, moving := false,
    reachedGoal := false, replanning := false }

/-- `Agent.set_path`. -/
def Agent.setPath (a : Agent) (path : List Pos) : Agent :=
  { a with
    path := path
    pathIndex := 0
    moving := decide (path ≠ [])
    reachedGoal := false
    cell := match path with | [] => a.cell | c :: _ => some c }

/-- `Agent.step`: returns whether the agent moved, and the new agent. -/
def Agent.step (a : Agent) (g : Grid) : Bool × Agent :=
  if a.moving = false ∨ a.path = [] then (false, a)
  else
    let nxt := a.pathIndex + 1
    if h : a.path.length ≤ nxt then
      (false, { a with moving := false, reachedGoal := true })
    else
      let nextCell := a.path.get ⟨nxt, by omega⟩
      if g.kind nextCell = CellKind.wall then
        (false, { a with moving := false, replanning := true })
      else
        (true, { a with pathIndex := nxt, cell := some nextCell })

/-- `Agent.needs_replan`. -/
def Agent.needsReplan (a : Agent) : Bool := a.replanning

/-- `Agent.accept_replan`. -/
def Agent.acceptReplan (a : Agent) (newPath : List Pos) : Agent :=
  { a with
    path := newPath
    pathIndex := 0
    replanning := false
    moving := decide (newPath ≠ [])
    cell := match newPath with | [] => a.cell | c :: _ => some c }

/-- `Agent.is_path_blocked`: scan the path suffix after the current index
for a wall. -/
def Agent.isPathBlocked (a : Agent) (g : Grid) : Bool :=
  (a.path.drop (a.pathIndex + 1)).any fun c => decide (g.kind c = CellKind.wall)

/-! ## The replanning coordinator (`App._update` / `App._do_replan`) -/

structure AppState where
  grid : Grid
  s : SState
  agent : Agent

/-- `App._do_replan`: replan from the agent's cell to the grid goal; on
success splice the new path into the agent, otherwise stop the agent. -/
def doReplan (algo : Algo) (h : Heur) (st : AppState) : AppState :=
  match st.agent.cell with
  | none => st
  | some cur =>
    let r := replanSearch st.grid st.s cur st.grid.goal algo h
    if r.1.found then
      { st with s := r.2, agent := st.agent.acceptReplan r.1.path }
    else
      { st with s := r.2, agent := { st.agent with moving := false } }

/-- The two coordinator events of the dynamic mode: spawning a random
obstacle, and the obstacle-check-plus-replan. -/
inductive DynOp where
  | spawnOp (k : ℕ)
  | replanIfBlocked

/-- One coordinator event. -/
def applyDynOp (algo : Algo) (h : Heur) (st : AppState) : DynOp → AppState
  | .spawnOp k =>
    { st with grid := (st.grid.spawnRandomObstacle st.s k).1 }
  | .replanIfBlocked =>
    if st.agent.isPathBlocked st.grid then doReplan algo h st else st

/-- A sequence of coordinator events. -/
def applyDynOps (algo : Algo) (h : Heur) : AppState → List DynOp → AppState
  | st, [] => st
  | st, op :: ops => applyDynOps algo h (applyDynOp algo h st op) ops

/-! ## Topology-changing operations as a transition system (for the
start/goal preservation invariant) -/

inductive GridOp where
  | placeW (p : Pos)
  | removeW (p : Pos)
  | mazeOp (w : Pos → Bool)
  | spawnW (k : ℕ)
  | fullResetOp

def applyGridOp (st : Grid × SState) : GridOp → Grid × SState
  | .placeW p => (st.1.placeWall p, st.2)
  | .removeW p => (st.1.removeWall p, st.2)
  | .mazeOp w => (st.1.generateRandomMaze w, st.2)
  | .spawnW k => ((st.1.spawnRandomObstacle st.2 k).1, st.2)
  | .fullResetOp => st.1.fullReset st.2

def applyGridOps : Grid × SState → List GridOp → Grid × SState
  | st, [] => st
  | st, op :: ops => applyGridOps (applyGridOp st op) ops

/-- Dispatch a search by algorithm selector with explicit origin and
goal, as `run_search` and `replan` do. -/
def searchAlgo (algo : Algo) (gr : Grid) (s : SState) (a b : Pos) (h : Heur) :
    SearchResult × SState :=
  match algo with
  | .astarSearch => astar gr s a b h
  | .greedyBFS => greedyBfs gr s a b h

/-! ## Concrete grids and agents used by witnesses and counterexamples -/

/-- A fresh grid with the given wall cells added. -/
def mkGrid (rows cols : ℕ) (walls : List Pos) : Grid :=
  let g0 := newGrid rows cols
  { g0 with kind := fun p => if p ∈ walls then CellKind.wall else g0.kind p }

/-- An empty 2×2 grid. -/
def g22 : Grid := newGrid 2 2

/-- A 2×2 grid whose cell `(0,1)` is a wall. -/
def blockedGrid : Grid := (newGrid 2 2).placeWall (0, 1)

/-- An agent holding the path `[(0,0), (0,1)]` at index 0. -/
def blockedAgent : Agent := Agent.reset.setPath [(0, 0), (0, 1)]

/-- The 3×5 grid with a single wall at `(2,3)`, on which Greedy BFS
provably takes a detour. -/
def detourGrid : Grid := mkGrid 3 5 [(2, 3)]

/-- A 3×3 grid whose start cell `(0,0)` is walled in by `(0,1)` and
`(1,0)`. -/
def enclosedGrid : Grid := mkGrid 3 3 [(0, 1), (1, 0)]

/-! ## Reachability: the specification side

`reachB g n a b` holds when there is an `n`-step walk from `a` to `b`
whose steps follow `Grid.neighbors` (so every cell after `a` is
in-bounds and walkable).  This is the reference notion of a
4-connected path used to state the claims. -/

def reachB (g : Grid) : ℕ → Pos → Pos → Bool
  | 0, a, b => a = b
  | n + 1, a, b => (g.neighbors a).any fun c => reachB g n c b

/-- `n`-step reachability. -/
def reachN (g : Grid) (n : ℕ) (a b : Pos) : Prop := reachB g n a b = true

instance (g : Grid) (n : ℕ) (a b : Pos) : Decidable (reachN g n a b) := by
  unfold reachN
  infer_instance

/-- Reachability by a walk of any length. -/
def Reachable (g : Grid) (a b : Pos) : Prop := ∃ n, reachN g n a b

/-- Reachability by a walk of at most `g.size` steps; decidable, and
(by route shortening) equivalent to `Reachable` from an in-bounds
origin. -/
def ReachableB (g : Grid) (a b : Pos) : Prop := ∃ n, n ≤ g.size ∧ reachN g n a b

instance (g : Grid) (a b : Pos) : Decidable (ReachableB g a b) :=
  decidable_of_iff
    ((List.range (g.size + 1)).any fun n => reachB g n a b) (by
      rw [List.any_eq_true]
      constructor
      · rintro ⟨n, hn, hr⟩
        exact ⟨n, by simp only [List.mem_range] at hn; omega, hr⟩
      · rintro ⟨n, hn, hr⟩
        exact ⟨n, by simp only [List.mem_range]; omega, hr⟩)

/-- The length of the shortest 4-connected walk between two cells
(`none` when no walk exists).  This is the specification of "true
shortest path length". -/
def mindist (g : Grid) (a b : Pos) : Option ℕ :=
  if h : ReachableB g a b then some (Nat.find h) else none

/-- The region of cells reachable from `a` (including `a` itself when in
bounds). -/
def regionSet (g : Grid) (a : Pos) : Finset Pos :=
  g.posFinset.filter fun p => ReachableB g a p

/-- A list of cells is a valid route from `a` to `b`: it starts at `a`,
ends at `b`, and each consecutive step moves to a `Grid.neighbors` cell
(in-bounds, walkable, orthogonally adjacent). -/
def ValidRoute (g : Grid) (a b : Pos) (l : List Pos) : Prop :=
  l.head? = some a ∧ l.getLast? = some b ∧ l.Chain' (fun p q => q ∈ g.neighbors p)

/-! ## Invariants and termination measures of the greedy loop -/

/-- Cells currently marked visited, as a finset. -/
def visitedSet (gr : Grid) (vis : Pos → Bool) : Finset Pos :=
  gr.posFinset.filter fun p => vis p = true

/-- Potential of one `g` value for the termination measures. -/
def gPhi (gr : Grid) : Option ℕ → ℕ
  | none => gr.size + 2
  | some v => min v (gr.size + 1)

/-- Termination measure of the greedy loop: every loop iteration
strictly decreases it. -/
def greedyMeasure (gr : Grid) (st : GreedySt) : ℕ :=
  st.heap.length + ∑ p ∈ gr.posFinset,
    (gPhi gr (st.s.g p) + (if st.s.inOpen p then 0 else 1) +
      (if st.visited p then 0 else 2))

/-- The loop invariant of `greedy_bfs`, holding at the top of every
iteration. -/
structure GInv (gr : Grid) (startPos goalPos : Pos) (st : GreedySt) : Prop where
  startOpen : st.s.inOpen startPos = true ∨ st.visited startPos = true
  startG : st.s.g startPos = some 0
  startParent : st.s.parent startPos = none
  heapG : ∀ ent ∈ st.heap, ∃ v, st.s.g ent.pos = some v
  heapIn : ∀ ent ∈ st.heap, gr.inB ent.pos
  gReach : ∀ p v, st.s.g p = some v → reachN gr v startPos p
  gBound : ∀ p v, st.s.g p = some v → v ≤ (visitedSet gr st.visited).card
  gBoundVis : ∀ p v, st.s.g p = some v → st.visited p = true →
      v < (visitedSet gr st.visited).card
  pChain : ∀ p q, st.s.parent p = some q → p ∈ gr.neighbors q ∧ st.visited q = true ∧
      ∃ w, st.s.g q = some w ∧ st.s.g p = some (w + 1)
  parentNone : ∀ p v, st.s.parent p = none → st.s.g p = some v → p = startPos ∧ v = 0
  visitedIn : ∀ p, st.visited p = true → gr.inB p
  visitedG : ∀ p, st.visited p = true → ∃ v, st.s.g p = some v
  notOpenG : ∀ p, st.s.inOpen p = false → st.visited p = false → st.s.g p = none
  openEntry : ∀ p, st.s.inOpen p = true → st.visited p = false →
      ∃ ent ∈ st.heap, ent.pos = p
  closure : ∀ p, st.visited p = true → ∀ nb ∈ gr.neighbors p,
      st.visited nb = true ∨ st.s.inOpen nb = true
  goalNotVis : st.visited goalPos = false
  nodesEq : st.nodes = (visitedSet gr st.visited).card

/-- The mid-expansion invariant of `greedy_bfs`, holding while the
neighbour fold of an expansion of `cur` runs (the closure obligation for
`cur` itself is re-established by the fold). -/
structure GMid (gr : Grid) (startPos goalPos cur : Pos) (st : GreedySt) : Prop where
  startOpen : st.s.inOpen startPos = true ∨ st.visited startPos = true
  startG : st.s.g startPos = some 0
  startParent : st.s.parent startPos = none
  heapG : ∀ ent ∈ st.heap, ∃ v, st.s.g ent.pos = some v
  heapIn : ∀ ent ∈ st.heap, gr.inB ent.pos
  gReach : ∀ p v, st.s.g p = some v → reachN gr v startPos p
  gBound : ∀ p v, st.s.g p = some v → v ≤ (visitedSet gr st.visited).card
  gBoundVis : ∀ p v, st.s.g p = some v → st.visited p = true →
      v < (visitedSet gr st.visited).card
  pChain : ∀ p q, st.s.parent p = some q → p ∈ gr.neighbors q ∧ st.visited q = true ∧
      ∃ w, st.s.g q = some w ∧ st.s.g p = some (w + 1)
  parentNone : ∀ p v, st.s.parent p = none → st.s.g p = some v → p = startPos ∧ v = 0
  visitedIn : ∀ p, st.visited p = true → gr.inB p
  visitedG : ∀ p, st.visited p = true → ∃ v, st.s.g p = some v
  notOpenG : ∀ p, st.s.inOpen p = false → st.visited p = false → st.s.g p = none
  openEntry : ∀ p, st.s.inOpen p = true → st.visited p = false →
      ∃ ent ∈ st.heap, ent.pos = p
  closure' : ∀ p, st.visited p = true → p ≠ cur → ∀ nb ∈ gr.neighbors p,
      st.visited nb = true ∨ st.s.inOpen nb = true
  curVis : st.visited cur = true
  goalNotVis : st.visited goalPos = false
  nodesEq : st.nodes = (visitedSet gr st.visited).card

/-- The contract of the greedy loop (and, without the optimality
clause, of any complete search): either the goal is reachable and a
found result carries a valid reconstructed route whose cost matches its
length and the goal's final `g`, or it is unreachable and the search
exhausts exactly the reachable region. -/
def greedyPost (gr : Grid) (startPos goalPos : Pos) (out : SearchResult × SState) : Prop :=
  (out.1.found = true ∧ Reachable gr startPos goalPos ∧
    ∃ v, out.2.g goalPos = some v ∧ out.1.pathCost = some v ∧
      out.1.path.length = v + 1 ∧ ValidRoute gr startPos goalPos out.1.path) ∨
  (out.1.found = false ∧ ¬ Reachable gr startPos goalPos ∧ out.1.path = [] ∧
    out.1.nodesVisited = (regionSet gr startPos).card)

/-! ## Invariants and termination measure of the A* loop -/

/-- Potential of one `g` value for the A* termination measure (every
finite `g` value A* ever writes is at most `size + 1`, so a cap of
`size + 2` makes every relaxation strictly decrease the potential). -/
def aPhi (gr : Grid) : Option ℕ → ℕ
  | none => gr.size + 3
  | some v => min v (gr.size + 2)

/-- Termination measure of the A* loop. -/
def astarMeasure (gr : Grid) (st : AStarSt) : ℕ :=
  st.heap.length + ∑ p ∈ gr.posFinset,
    (aPhi gr (st.s.g p) + (if st.s.inOpen p then 0 else 1) +
      (if (st.expanded p).isSome then 0 else 2))

/-- The loop invariant of `astar`, holding at the top of every
iteration.  `expanded` positions are settled with optimal `g`; every
unsettled position with finite `g` has a heap entry carrying exactly its
current `g` as key base; neighbours of settled cells have been relaxed. -/
structure AInv (gr : Grid) (startPos goalPos : Pos) (h : Heur) (st : AStarSt) : Prop where
  startG : st.s.g startPos = some 0
  startParent : st.s.parent startPos = none
  heapIn : ∀ ent ∈ st.heap, gr.inB ent.pos
  heapKey : ∀ ent ∈ st.heap, ∃ v, st.s.g ent.pos = some v ∧ v ≤ ent.key.1 ∧
      ent.key.2 = hsq h ent.pos goalPos
  gReach : ∀ p v, st.s.g p = some v → reachN gr v startPos p
  gIn : ∀ p v, st.s.g p = some v → gr.inB p
  gBound : ∀ p v, st.s.g p = some v → v ≤ gr.size + 1
  pChain : ∀ p q, st.s.parent p = some q → p ∈ gr.neighbors q ∧
      ∃ w, st.s.g q = some w ∧ st.s.g p = some (w + 1) ∧
        mindist gr startPos q = some w
  parentNone : ∀ p v, st.s.parent p = none → st.s.g p = some v → p = startPos ∧ v = 0
  expG : ∀ p r, st.expanded p = some r → r = st.s.g p
  expOpt : ∀ p r, st.expanded p = some r → ∃ v, st.s.g p = some v ∧
      mindist gr startPos p = some v
  openExact : ∀ p v, st.s.g p = some v → st.expanded p = none →
      ∃ ent ∈ st.heap, ent.pos = p ∧ ent.key = (v, hsq h p goalPos)
  settledNb : ∀ p r, st.expanded p = some r → ∀ nb ∈ gr.neighbors p,
      ∃ u w, st.s.g nb = some u ∧ mindist gr startPos p = some w ∧ u ≤ w + 1
  goalNotExp : st.expanded goalPos = none
  nodesEq : st.nodes = (visitedSet gr (fun p => (st.expanded p).isSome)).card

/-- The mid-expansion invariant of `astar`, holding while the neighbour
fold of an expansion of `cur` runs (`gc` is `cur`'s settled, optimal
`g`; the relaxation obligation for `cur`'s own neighbours is
established by the fold). -/
structure AMid (gr : Grid) (startPos goalPos cur : Pos) (h : Heur) (gc : ℕ)
    (st : AStarSt) : Prop where
  startG : st.s.g startPos = some 0
  startParent : st.s.parent startPos = none
  heapIn : ∀ ent ∈ st.heap, gr.inB ent.pos
  heapKey : ∀ ent ∈ st.heap, ∃ v, st.s.g ent.pos = some v ∧ v ≤ ent.key.1 ∧
      ent.key.2 = hsq h ent.pos goalPos
  gReach : ∀ p v, st.s.g p = some v → reachN gr v startPos p
  gIn : ∀ p v, st.s.g p = some v → gr.inB p
  gBound : ∀ p v, st.s.g p = some v → v ≤ gr.size + 1
  pChain : ∀ p q, st.s.parent p = some q → p ∈ gr.neighbors q ∧
      ∃ w, st.s.g q = some w ∧ st.s.g p = some (w + 1) ∧
        mindist gr startPos q = some w
  parentNone : ∀ p v, st.s.parent p = none → st.s.g p = some v → p = startPos ∧ v = 0
  expG : ∀ p r, st.expanded p = some r → r = st.s.g p
  expOpt : ∀ p r, st.expanded p = some r → ∃ v, st.s.g p = some v ∧
      mindist gr startPos p = some v
  openExact : ∀ p v, st.s.g p = some v → st.expanded p = none →
      ∃ ent ∈ st.heap, ent.pos = p ∧ ent.key = (v, hsq h p goalPos)
  settledNb : ∀ p r, st.expanded p = some r → p ≠ cur → ∀ nb ∈ gr.neighbors p,
      ∃ u w, st.s.g nb = some u ∧ mindist gr startPos p = some w ∧ u ≤ w + 1
  curG : st.s.g cur = some gc
  curMin : mindist gr startPos cur = some gc
  curExp : st.expanded cur = some (some gc)
  goalNotExp : st.expanded goalPos = none
  nodesEq : st.nodes = (visitedSet gr (fun p => (st.expanded p).isSome)).card

/-- The contract of the A* loop: the greedy contract strengthened with
optimality of the found cost. -/
def astarPost (gr : Grid) (startPos goalPos : Pos) (out : SearchResult × SState) : Prop :=
  (out.1.found = true ∧ Reachable gr startPos goalPos ∧
    ∃ v, out.2.g goalPos = some v ∧ out.1.pathCost = some v ∧
      out.1.path.length = v + 1 ∧ ValidRoute gr startPos goalPos out.1.path ∧
      mindist gr startPos goalPos = some v) ∨
  (out.1.found = false ∧ ¬ Reachable gr startPos goalPos ∧ out.1.path = [] ∧
    out.1.nodesVisited = (regionSet gr startPos).card)

/-! # Theorems -/

theorem Grid.mem_allCells {g : Grid} {p : Pos} : p ∈ g.allCells ↔ g.inB p := by
  cases p with
  | mk r c =>
    simp only [Grid.allCells, Grid.inB, List.mem_flatMap, List.mem_map, List.mem_range]
    constructor
    · rintro ⟨a, ha, b, hb, h⟩
      obtain ⟨h1, h2⟩ := Prod.mk.injEq .. ▸ h
      exact ⟨by omega, by omega⟩
    · rintro ⟨h1, h2⟩; exact ⟨r, h1, c, h2, rfl⟩

theorem Grid.mem_posFinset {g : Grid} {p : Pos} : p ∈ g.posFinset ↔ g.inB p := by
  cases p with
  | mk r c => simp [Grid.posFinset, Grid.inB, Finset.mem_product]

theorem Grid.card_posFinset (g : Grid) : g.posFinset.card = g.size := by
  simp [Grid.posFinset, Grid.size]

/-- One probe of the neighbour loop body. -/
theorem Grid.probe_eq_some {g : Grid} {r c : ℤ} {q : Pos} :
    (match g.get r c with
      | some q => if g.kind q ≠ CellKind.wall then some q else none
      | none => none) = some q ↔
      0 ≤ r ∧ r < g.rows ∧ 0 ≤ c ∧ c < g.cols ∧ q = (r.toNat, c.toNat) ∧
        g.kind q ≠ CellKind.wall := by
  unfold Grid.get
  by_cases hin : 0 ≤ r ∧ r < g.rows ∧ 0 ≤ c ∧ c < g.cols
  · rw [if_pos hin]
    simp only
    by_cases hk : g.kind (r.toNat, c.toNat) ≠ CellKind.wall
    · rw [if_pos hk]
      constructor
      · rintro h
        obtain rfl := Option.some.injEq _ _ ▸ h
        injection h with h
        exact ⟨hin.1, hin.2.1, hin.2.2.1, hin.2.2.2, h.symm, h ▸ hk⟩
      · rintro ⟨_, _, _, _, rfl, _⟩; rfl
    · rw [if_neg hk]
      constructor
      · intro h; exact absurd h (by simp)
      · rintro ⟨_, _, _, _, rfl, hk2⟩; exact absurd hk2 hk
  · rw [if_neg hin]
    simp only
    constructor
    · intro h; exact absurd h (by simp)
    · rintro ⟨h1, h2, h3, h4, _, _⟩; exact absurd ⟨h1, h2, h3, h4⟩ hin

/-- Membership characterisation of `neighbors`: a neighbour is in bounds,
walkable, and at unit orthogonal distance. -/
theorem Grid.mem_neighbors {g : Grid} {p q : Pos} :
    q ∈ g.neighbors p ↔
      g.inB q ∧ g.kind q ≠ CellKind.wall ∧
        ((q.1 + 1 = p.1 ∧ q.2 = p.2) ∨ (q.1 = p.1 + 1 ∧ q.2 = p.2) ∨
          (q.1 = p.1 ∧ q.2 + 1 = p.2) ∨ (q.1 = p.1 ∧ q.2 = p.2 + 1)) := by
  obtain ⟨a, b⟩ := p
  obtain ⟨x, y⟩ := q
  rw [Grid.neighbors, List.mem_filterMap]
  constructor
  · rintro ⟨d, hd, hq⟩
    rw [Grid.probe_eq_some] at hq
    obtain ⟨h1, h2, h3, h4, h5, h6⟩ := hq
    have hx : (x : ℤ) = (a : ℤ) + d.1 := by
      have := congrArg Prod.fst h5
      simp only at this
      omega
    have hy : (y : ℤ) = (b : ℤ) + d.2 := by
      have := congrArg Prod.snd h5
      simp only at this
      omega
    refine ⟨⟨by omega, by omega⟩, h6, ?_⟩
    fin_cases hd <;> simp only at hx hy <;>
      [left; (right; left); (right; right; left); (right; right; right)] <;>
      constructor <;> omega
  · rintro ⟨⟨hx, hy⟩, hk, hadj⟩
    have key : ∀ d : ℤ × ℤ, ((x : ℤ) = (a : ℤ) + d.1) → ((y : ℤ) = (b : ℤ) + d.2) →
        d ∈ [((-1 : ℤ), (0 : ℤ)), (1, 0), (0, -1), (0, 1)] →
        ∃ d' ∈ [((-1 : ℤ), (0 : ℤ)), (1, 0), (0, -1), (0, 1)],
          (match g.get ((a : ℤ) + d'.1) ((b : ℤ) + d'.2) with
            | some q => if g.kind q ≠ CellKind.wall then some q else none
            | none => none) = some (x, y) := by
      intro d hdx hdy hdm
      refine ⟨d, hdm, ?_⟩
      rw [Grid.probe_eq_some]
      refine ⟨by omega, by rw [← hdx]; exact_mod_cast hx, by omega,
        by rw [← hdy]; exact_mod_cast hy, ?_, hk⟩
      have : ((a : ℤ) + d.1).toNat = x := by omega
      have : ((b : ℤ) + d.2).toNat = y := by omega
      simp_all
    rcases hadj with ⟨h1, h2⟩ | ⟨h1, h2⟩ | ⟨h1, h2⟩ | ⟨h1, h2⟩
    · exact key (-1, 0) (by simp; omega) (by simp; omega) (by simp)
    · exact key (1, 0) (by simp; omega) (by simp; omega) (by simp)
    · exact key (0, -1) (by simp; omega) (by simp; omega) (by simp)
    · exact key (0, 1) (by simp; omega) (by simp; omega) (by simp)

theorem Grid.neighbors_inB {g : Grid} {p q : Pos} (h : q ∈ g.neighbors p) : g.inB q :=
  (Grid.mem_neighbors.1 h).1

theorem Grid.neighbors_walkable {g : Grid} {p q : Pos} (h : q ∈ g.neighbors p) :
    g.kind q ≠ CellKind.wall :=
  (Grid.mem_neighbors.1 h).2.1

theorem Grid.neighbors_ne {g : Grid} {p q : Pos} (h : q ∈ g.neighbors p) : q ≠ p := by
  have := (Grid.mem_neighbors.1 h).2.2
  rintro rfl
  omega

theorem hsq_self (h : Heur) (p : Pos) : hsq h p p = 0 := by
  cases h <;> simp [hsq, mdist, natDist]

theorem sqrt_lt_add_sqrt (e d e' : ℕ) :
    Real.sqrt e < (d : ℝ) + Real.sqrt e' ↔
      (e : ℝ) < (d : ℝ) * d + e' + 2 * d * Real.sqrt e' := by
  rcases eq_or_lt_of_le (by positivity : (0 : ℝ) ≤ (d : ℝ) + Real.sqrt e') with h0 | h0
  · have hd : (d : ℝ) = 0 := by nlinarith [Real.sqrt_nonneg (e' : ℝ)]
    have he' : Real.sqrt (e' : ℝ) = 0 := by nlinarith [Real.sqrt_nonneg (e' : ℝ)]
    have he'0 : ((e' : ℕ) : ℝ) = 0 := (Real.sqrt_eq_zero (by positivity)).1 he'
    rw [hd, he', he'0]
    constructor
    · intro h
      exfalso
      have := Real.sqrt_nonneg (e : ℝ)
      linarith
    · intro h
      exfalso
      have : (0 : ℝ) ≤ (e : ℝ) := by positivity
      nlinarith
  · rw [Real.sqrt_lt' h0, add_sq, Real.sq_sqrt (by positivity : (0:ℝ) ≤ (e' : ℝ))]
    constructor <;> intro h <;> nlinarith

theorem sqrt_eq_add_sqrt (e d e' : ℕ) :
    Real.sqrt e = (d : ℝ) + Real.sqrt e' ↔
      (e : ℝ) = (d : ℝ) * d + e' + 2 * d * Real.sqrt e' := by
  constructor
  · intro h
    have h1 : ((e : ℕ) : ℝ) = ((d : ℝ) + Real.sqrt e') ^ 2 := by
      rw [← h, Real.sq_sqrt (by positivity)]
    rw [add_sq, Real.sq_sqrt (by positivity : (0:ℝ) ≤ (e' : ℝ))] at h1
    nlinarith
  · intro h
    have h1 : ((e : ℕ) : ℝ) = ((d : ℝ) + Real.sqrt e') ^ 2 := by
      rw [add_sq, Real.sq_sqrt (by positivity : (0:ℝ) ≤ (e' : ℝ))]
      nlinarith
    rw [h1, Real.sqrt_sq (by positivity)]

theorem cast_sub_base {e d e' : ℕ} (hb : d * d + e' ≤ e) :
    ((e - (d * d + e') : ℕ) : ℝ) = (e : ℝ) - ((d : ℝ) * d + e') := by
  push_cast [Nat.cast_sub hb]
  ring

theorem twoD_sqrt_eq {d e' : ℕ} :
    2 * (d : ℝ) * Real.sqrt e' = Real.sqrt ((4 * (d * d) * e' : ℕ) : ℝ) := by
  have h1 : ((4 * (d * d) * e' : ℕ) : ℝ) = (2 * (d : ℝ)) ^ 2 * e' := by
    push_cast; ring
  rw [h1, Real.sqrt_mul (sq_nonneg _), Real.sqrt_sq (by positivity)]

theorem sqCmp_lt_iff {e d e' : ℕ} :
    sqCmp e d e' = .lt ↔ Real.sqrt e < (d : ℝ) + Real.sqrt e' := by
  unfold sqCmp
  rw [sqrt_lt_add_sqrt]
  by_cases hb : e < d * d + e'
  · rw [if_pos hb]
    simp only [true_iff]
    have h1 : ((e : ℕ) : ℝ) < (d : ℝ) * d + e' := by exact_mod_cast hb
    nlinarith [Real.sqrt_nonneg (e' : ℝ), (by positivity : (0:ℝ) ≤ (d : ℝ))]
  · rw [if_neg hb]
    push_neg at hb
    rw [Nat.compare_eq_lt]
    have key : (e - (d * d + e')) * (e - (d * d + e')) < 4 * (d * d) * e' ↔
        ((e - (d * d + e') : ℕ) : ℝ) < 2 * (d : ℝ) * Real.sqrt e' := by
      rw [twoD_sqrt_eq, Real.lt_sqrt (by positivity)]
      rw [show (((e - (d * d + e') : ℕ) : ℝ)) ^ 2 =
          (((e - (d * d + e')) * (e - (d * d + e')) : ℕ) : ℝ) by push_cast; ring]
      exact_mod_cast Iff.rfl
    rw [key, cast_sub_base hb]
    constructor <;> intro h <;> linarith

theorem sqCmp_eq_iff {e d e' : ℕ} :
    sqCmp e d e' = .eq ↔ Real.sqrt e = (d : ℝ) + Real.sqrt e' := by
  unfold sqCmp
  rw [sqrt_eq_add_sqrt]
  by_cases hb : e < d * d + e'
  · rw [if_pos hb]
    constructor
    · intro h; exact absurd h (by simp)
    · intro h
      exfalso
      have h1 : ((e : ℕ) : ℝ) < (d : ℝ) * d + e' := by exact_mod_cast hb
      nlinarith [Real.sqrt_nonneg (e' : ℝ), (by positivity : (0:ℝ) ≤ (d : ℝ))]
  · rw [if_neg hb]
    push_neg at hb
    rw [Nat.compare_eq_eq]
    have key : (e - (d * d + e')) * (e - (d * d + e')) = 4 * (d * d) * e' ↔
        ((e - (d * d + e') : ℕ) : ℝ) = 2 * (d : ℝ) * Real.sqrt e' := by
      rw [twoD_sqrt_eq, eq_comm (b := Real.sqrt ((4 * (d * d) * e' : ℕ) : ℝ)),
        Real.sqrt_eq_iff_eq_sq (by positivity) (by positivity)]
      rw [show (((e - (d * d + e') : ℕ) : ℝ)) ^ 2 =
          (((e - (d * d + e')) * (e - (d * d + e')) : ℕ) : ℝ) by push_cast; ring]
      constructor <;> intro h <;> exact_mod_cast h.symm
    rw [key, cast_sub_base hb]
    constructor <;> intro h <;> linarith

theorem sqCmp_gt_iff {e d e' : ℕ} :
    sqCmp e d e' = .gt ↔ (d : ℝ) + Real.sqrt e' < Real.sqrt e := by
  rcases lt_trichotomy (Real.sqrt (e : ℝ)) ((d : ℝ) + Real.sqrt e') with h | h | h
  · rw [sqCmp_lt_iff.2 h]
    simp only [reduceCtorEq, false_iff, not_lt]
    linarith
  · rw [sqCmp_eq_iff.2 h]
    simp only [reduceCtorEq, false_iff, not_lt]
    linarith
  · constructor
    · intro _; exact h
    · intro _
      rcases hc : sqCmp e d e' with hlt | heq | hgt
      · exact absurd (sqCmp_lt_iff.1 hc) (by linarith)
      · exact absurd (sqCmp_eq_iff.1 hc) (by intro hh; linarith)
      · rfl

theorem Ordering.swap_eq_lt_iff {o : Ordering} : o.swap = .lt ↔ o = .gt := by
  cases o <;> simp [Ordering.swap]

theorem Ordering.swap_eq_eq_iff {o : Ordering} : o.swap = .eq ↔ o = .eq := by
  cases o <;> simp [Ordering.swap]

theorem Key.cmp_lt_iff {k₁ k₂ : Key} : Key.cmp k₁ k₂ = .lt ↔ k₁.val < k₂.val := by
  unfold Key.cmp Key.val
  by_cases h : k₁.1 ≤ k₂.1
  · rw [if_pos h, sqCmp_lt_iff]
    have : ((k₂.1 - k₁.1 : ℕ) : ℝ) = (k₂.1 : ℝ) - k₁.1 := by
      push_cast [Nat.cast_sub h]; ring
    rw [this]
    constructor <;> intro <;> linarith
  · rw [if_neg h, Ordering.swap_eq_lt_iff, sqCmp_gt_iff]
    have : ((k₁.1 - k₂.1 : ℕ) : ℝ) = (k₁.1 : ℝ) - k₂.1 := by
      push_cast [Nat.cast_sub (by omega : k₂.1 ≤ k₁.1)]; ring
    rw [this]
    constructor <;> intro <;> linarith

theorem Key.cmp_eq_iff {k₁ k₂ : Key} : Key.cmp k₁ k₂ = .eq ↔ k₁.val = k₂.val := by
  unfold Key.cmp Key.val
  by_cases h : k₁.1 ≤ k₂.1
  · rw [if_pos h, sqCmp_eq_iff]
    have : ((k₂.1 - k₁.1 : ℕ) : ℝ) = (k₂.1 : ℝ) - k₁.1 := by
      push_cast [Nat.cast_sub h]; ring
    rw [this]
    constructor <;> intro <;> linarith
  · rw [if_neg h, Ordering.swap_eq_eq_iff, sqCmp_eq_iff]
    have : ((k₁.1 - k₂.1 : ℕ) : ℝ) = (k₁.1 : ℝ) - k₂.1 := by
      push_cast [Nat.cast_sub (by omega : k₂.1 ≤ k₁.1)]; ring
    rw [this]
    constructor <;> intro <;> linarith

theorem Key.cmp_gt_iff {k₁ k₂ : Key} : Key.cmp k₁ k₂ = .gt ↔ k₂.val < k₁.val := by
  rcases lt_trichotomy k₁.val k₂.val with h | h | h
  · rw [Key.cmp_lt_iff.2 h]
    simp only [reduceCtorEq, false_iff, not_lt]
    linarith
  · rw [Key.cmp_eq_iff.2 h]
    simp only [reduceCtorEq, false_iff, not_lt]
    linarith
  · constructor
    · intro _; exact h
    · intro _
      rcases hc : Key.cmp k₁ k₂ with hlt | heq | hgt
      · exact absurd (Key.cmp_lt_iff.1 hc) (by linarith)
      · exact absurd (Key.cmp_eq_iff.1 hc) (by intro hh; linarith)
      · rfl

theorem entryLtB_iff {a b : Entry} : entryLtB a b = true ↔ Entry.Lt a b := by
  unfold entryLtB Entry.Lt
  rcases hc : Key.cmp a.key b.key with h | h | h
  · simp only [true_iff]
    exact Or.inl (Key.cmp_lt_iff.1 hc)
  · have heq := Key.cmp_eq_iff.1 hc
    simp only [decide_eq_true_eq]
    constructor
    · intro h2; exact Or.inr ⟨heq, h2⟩
    · rintro (h2 | ⟨_, h2⟩)
      · exact absurd heq (by linarith)
      · exact h2
  · have hgt := Key.cmp_gt_iff.1 hc
    simp only [Bool.false_eq_true, false_iff]
    rintro (h2 | ⟨h2, _⟩) <;> linarith

theorem Entry.Lt.irrefl (a : Entry) : ¬ Entry.Lt a a := by
  unfold Entry.Lt
  rintro (h | ⟨_, h⟩)
  · linarith
  · omega

theorem Entry.Lt.trans {a b c : Entry} (h1 : Entry.Lt a b) (h2 : Entry.Lt b c) :
    Entry.Lt a c := by
  unfold Entry.Lt at *
  rcases h1 with h1 | ⟨h1, h1'⟩ <;> rcases h2 with h2 | ⟨h2, h2'⟩
  · left; linarith
  · left; linarith
  · left; linarith
  · right; exact ⟨by linarith, by omega⟩

theorem Entry.not_lt_lt {a b c : Entry} (h1 : ¬ Entry.Lt b a) (h2 : Entry.Lt b c) :
    Entry.Lt a c := by
  unfold Entry.Lt at *
  push_neg at h1
  rcases h2 with h2 | ⟨h2, h2'⟩
  · rcases lt_or_eq_of_le h1.1 with h3 | h3
    · left; linarith
    · left; linarith
  · rcases lt_or_eq_of_le h1.1 with h3 | h3
    · left; linarith
    · right
      refine ⟨by linarith, ?_⟩
      have := h1.2 (by linarith)
      omega

theorem minEntry_mem (e : Entry) (l : List Entry) : minEntry e l ∈ e :: l := by
  induction l generalizing e with
  | nil => simp [minEntry]
  | cons x xs ih =>
    unfold minEntry
    simp only [List.foldl_cons]
    by_cases h : entryLtB x e
    · rw [if_pos h]
      have := ih x
      simp only [List.mem_cons] at this ⊢
      tauto
    · rw [if_neg h]
      have := ih e
      simp only [List.mem_cons] at this ⊢
      tauto

theorem minEntry_min (e : Entry) (l : List Entry) :
    ∀ x ∈ e :: l, ¬ Entry.Lt x (minEntry e l) := by
  induction l generalizing e with
  | nil =>
    intro x hx
    simp only [List.mem_singleton] at hx
    simp only [minEntry, List.foldl_nil]
    intro hc
    exact Entry.Lt.irrefl e (hx ▸ hc)
  | cons y ys ih =>
    intro x hx
    unfold minEntry
    simp only [List.foldl_cons]
    by_cases h : entryLtB y e
    · rw [if_pos h]
      have hlt := entryLtB_iff.1 h
      simp only [List.mem_cons] at hx
      rcases hx with h1 | h1 | h1
      · -- x = e and y < e: if x < min then y < min, contradiction
        intro hc
        exact ih y y (List.mem_cons_self _ _) (Entry.Lt.trans hlt (h1 ▸ hc))
      · intro hc
        exact ih y y (List.mem_cons_self _ _) (h1 ▸ hc)
      · exact ih y x (List.mem_cons_of_mem _ h1)
    · rw [if_neg h]
      have hnlt : ¬ Entry.Lt y e := fun hc => h (entryLtB_iff.2 hc)
      simp only [List.mem_cons] at hx
      rcases hx with h1 | h1 | h1
      · intro hc
        exact ih e e (List.mem_cons_self _ _) (h1 ▸ hc)
      · -- x = y and ¬ y < e: if y < min then e < min, contradiction
        intro hc
        exact ih e e (List.mem_cons_self _ _) (Entry.not_lt_lt hnlt (h1 ▸ hc))
      · exact ih e x (List.mem_cons_of_mem _ h1)

theorem popMin_eq_none {l : List Entry} : popMin l = none ↔ l = [] := by
  cases l <;> simp [popMin]

theorem popMin_mem {l : List Entry} {m : Entry} {r : List Entry}
    (h : popMin l = some (m, r)) : m ∈ l := by
  cases l with
  | nil => simp [popMin] at h
  | cons e rest =>
    simp only [popMin, Option.some.injEq, Prod.mk.injEq] at h
    obtain ⟨rfl, _⟩ := h
    exact minEntry_mem e rest

theorem popMin_perm {l : List Entry} {m : Entry} {r : List Entry}
    (h : popMin l = some (m, r)) : l.Perm (m :: r) := by
  cases l with
  | nil => simp [popMin] at h
  | cons e rest =>
    simp only [popMin, Option.some.injEq, Prod.mk.injEq] at h
    obtain ⟨rfl, rfl⟩ := h
    exact List.perm_cons_erase (minEntry_mem e rest)

theorem popMin_min {l : List Entry} {m : Entry} {r : List Entry}
    (h : popMin l = some (m, r)) : ∀ x ∈ l, ¬ Entry.Lt x m := by
  cases l with
  | nil => simp [popMin] at h
  | cons e rest =>
    simp only [popMin, Option.some.injEq, Prod.mk.injEq] at h
    obtain ⟨rfl, _⟩ := h
    exact minEntry_min e rest

theorem popMin_rest_subset {l : List Entry} {m : Entry} {r : List Entry}
    (h : popMin l = some (m, r)) : ∀ x ∈ r, x ∈ l := by
  intro x hx
  exact (popMin_perm h).mem_iff.2 (List.mem_cons_of_mem _ hx)

theorem popMin_length {l : List Entry} {m : Entry} {r : List Entry}
    (h : popMin l = some (m, r)) : l.length = r.length + 1 := by
  have := (popMin_perm h).length_eq
  simpa using this

/-- The popped entry's key value is a lower bound of every key in the heap. -/
theorem popMin_key_le {l : List Entry} {m : Entry} {r : List Entry}
    (h : popMin l = some (m, r)) : ∀ x ∈ l, m.key.val ≤ x.key.val := by
  intro x hx
  have := popMin_min h x hx
  unfold Entry.Lt at this
  push_neg at this
  exact this.1

@[simp] theorem ogLtB_none_left (y : Option ℕ) : ogLtB none y = false := rfl

@[simp] theorem ogLtB_some_none (v : ℕ) : ogLtB (some v) none = true := rfl

@[simp] theorem ogLtB_some_some (v w : ℕ) : ogLtB (some v) (some w) = decide (v < w) := rfl

@[simp] theorem ogLeB_some_some (v w : ℕ) : ogLeB (some v) (some w) = decide (v ≤ w) := rfl

@[simp] theorem ogLeB_some_none (v : ℕ) : ogLeB (some v) none = true := rfl

@[simp] theorem upd_same {α : Type} (f : Pos → α) (p : Pos) (v : α) : upd f p v p = v := by
  simp [upd]

theorem upd_ne {α : Type} (f : Pos → α) {p q : Pos} (v : α) (h : q ≠ p) :
    upd f p v q = f q := by
  simp [upd, h]

/-! ### Reset -/

/-- Resetting produces the canonical all-clear scratch state, whatever
the previous scratch state was. -/
theorem resetSearchState_eq_initS (g : Grid) (s : SState) :
    g.resetSearchState s = initS := rfl

/-! ### Spawn candidates -/

theorem Grid.mem_spawnCandidates {g : Grid} {s : SState} {p : Pos} :
    p ∈ g.spawnCandidates s ↔
      g.inB p ∧ g.kind p = CellKind.empty ∧ s.onPath p = false := by
  unfold Grid.spawnCandidates
  rw [List.mem_filter, Grid.mem_allCells]
  simp [Bool.and_eq_true, decide_eq_true_eq, Bool.not_eq_true', and_assoc]

theorem Grid.allCells_nodup (g : Grid) : g.allCells.Nodup := by
  unfold Grid.allCells
  rw [List.nodup_flatMap]
  constructor
  · intro r _
    exact (List.nodup_range _).map fun a b h => congrArg Prod.snd h
  · refine (List.nodup_range _).imp ?_
    intro r1 r2 hne x hx1 hx2
    simp only [List.mem_map, List.mem_range] at hx1 hx2
    obtain ⟨c1, _, rfl⟩ := hx1
    obtain ⟨c2, _, h⟩ := hx2
    exact hne (congrArg Prod.fst h).symm

theorem Grid.spawnCandidates_nodup (g : Grid) (s : SState) :
    (g.spawnCandidates s).Nodup :=
  (g.allCells_nodup).filter _

/-- **C7**: `spawnRandomObstacle` selects among exactly the cells that
are `Empty` and not `onPath` (its candidate list contains each such cell
exactly once, and `random.choice` picks uniformly from it); it converts
the selected cell to a wall and returns it; every candidate can be
selected; with no eligible cell it returns `none` and changes nothing. -/
theorem spawnRandomObstacle_spec (g : Grid) (s : SState) :
    (∀ p, p ∈ g.spawnCandidates s ↔
        g.inB p ∧ g.kind p = CellKind.empty ∧ s.onPath p = false) ∧
    (g.spawnCandidates s).Nodup ∧
    (g.spawnCandidates s = [] → ∀ k, g.spawnRandomObstacle s k = (g, none)) ∧
    (∀ k, g.spawnCandidates s ≠ [] →
        ∃ c ∈ g.spawnCandidates s,
          g.spawnRandomObstacle s k =
            ({ g with kind := upd g.kind c CellKind.wall }, some c)) ∧
    (∀ c ∈ g.spawnCandidates s, ∃ k,
        g.spawnRandomObstacle s k =
          ({ g with kind := upd g.kind c CellKind.wall }, some c)) := by
  refine ⟨fun _ => Grid.mem_spawnCandidates, g.spawnCandidates_nodup s, ?_, ?_, ?_⟩
  · intro hnil k
    unfold Grid.spawnRandomObstacle
    rw [dif_pos hnil]
  · intro k hne
    unfold Grid.spawnRandomObstacle
    rw [dif_neg hne]
    exact ⟨_, List.get_mem _ _ _, rfl⟩
  · intro c hc
    obtain ⟨⟨i, hi⟩, rfl⟩ := List.mem_iff_get.1 hc
    refine ⟨i, ?_⟩
    unfold Grid.spawnRandomObstacle
    rw [dif_neg (List.ne_nil_of_mem hc)]
    have hmod : i % (g.spawnCandidates s).length = i := Nat.mod_eq_of_lt hi
    simp [hmod]

/-! ### Start/goal preservation (C6) -/

theorem Grid.placeWall_start (g : Grid) (p : Pos) : (g.placeWall p).start = g.start := by
  unfold Grid.placeWall
  split <;> rfl

theorem Grid.placeWall_goal (g : Grid) (p : Pos) : (g.placeWall p).goal = g.goal := by
  unfold Grid.placeWall
  split <;> rfl

theorem Grid.removeWall_start (g : Grid) (p : Pos) : (g.removeWall p).start = g.start := by
  unfold Grid.removeWall
  split <;> rfl

theorem Grid.removeWall_goal (g : Grid) (p : Pos) : (g.removeWall p).goal = g.goal := by
  unfold Grid.removeWall
  split <;> rfl

theorem Grid.spawn_start (g : Grid) (s : SState) (k : ℕ) :
    (g.spawnRandomObstacle s k).1.start = g.start := by
  unfold Grid.spawnRandomObstacle
  by_cases h : g.spawnCandidates s = []
  · rw [dif_pos h]
  · rw [dif_neg h]

theorem Grid.spawn_goal (g : Grid) (s : SState) (k : ℕ) :
    (g.spawnRandomObstacle s k).1.goal = g.goal := by
  unfold Grid.spawnRandomObstacle
  by_cases h : g.spawnCandidates s = []
  · rw [dif_pos h]
  · rw [dif_neg h]

theorem Grid.placeWall_kind_ne {g : Grid} {p q : Pos}
    (h : g.kind q = CellKind.start ∨ g.kind q = CellKind.goal) :
    (g.placeWall p).kind q = g.kind q := by
  unfold Grid.placeWall
  split
  next hcond =>
    have hne : q ≠ p := by
      rintro rfl
      rcases h with h | h <;> simp [h] at hcond
    simp [upd_ne _ _ hne]
  next => rfl

theorem Grid.removeWall_kind_ne {g : Grid} {p q : Pos}
    (h : g.kind q = CellKind.start ∨ g.kind q = CellKind.goal) :
    (g.removeWall p).kind q = g.kind q := by
  unfold Grid.removeWall
  split
  next hcond =>
    have hne : q ≠ p := by
      rintro rfl
      rcases h with h | h <;> rw [h] at hcond <;> exact absurd hcond.2 (by simp)
    simp [upd_ne _ _ hne]
  next => rfl

theorem Grid.maze_kind_ne {g : Grid} {w : Pos → Bool} {q : Pos}
    (h : g.kind q = CellKind.start ∨ g.kind q = CellKind.goal) :
    (g.generateRandomMaze w).kind q = g.kind q := by
  simp only [Grid.generateRandomMaze]
  by_cases hb : g.inB q
  · simp [hb, h]
  · simp [hb]

theorem Grid.spawn_kind_ne {g : Grid} {s : SState} {k : ℕ} {q : Pos}
    (h : g.kind q = CellKind.start ∨ g.kind q = CellKind.goal) :
    (g.spawnRandomObstacle s k).1.kind q = g.kind q := by
  unfold Grid.spawnRandomObstacle
  by_cases hnil : g.spawnCandidates s = []
  · rw [dif_pos hnil]
  · rw [dif_neg hnil]
    simp only
    have hcmem : (g.spawnCandidates s).get
        ⟨k % (g.spawnCandidates s).length,
          Nat.mod_lt _ (List.length_pos.2 hnil)⟩ ∈ g.spawnCandidates s :=
      List.get_mem _ _ _
    have hck := (Grid.mem_spawnCandidates.1 hcmem).2.1
    have hne : q ≠ (g.spawnCandidates s).get
        ⟨k % (g.spawnCandidates s).length,
          Nat.mod_lt _ (List.length_pos.2 hnil)⟩ := by
      rintro rfl
      rcases h with h | h <;> rw [h] at hck <;> exact absurd hck (by simp)
    exact upd_ne _ _ hne

theorem Grid.fullReset_kind_ne {g : Grid} {s : SState} {q : Pos}
    (h : g.kind q = CellKind.start ∨ g.kind q = CellKind.goal) :
    (g.fullReset s).1.kind q = g.kind q := by
  simp only [Grid.fullReset]
  rw [if_neg]
  rintro ⟨_, hne1, hne2⟩
  rcases h with h | h
  · exact hne1 h
  · exact hne2 h

theorem applyGridOp_preserves (st : Grid × SState) (op : GridOp)
    (hs : st.1.kind st.1.start = CellKind.start)
    (hg : st.1.kind st.1.goal = CellKind.goal) :
    (applyGridOp st op).1.start = st.1.start ∧
    (applyGridOp st op).1.goal = st.1.goal ∧
    (applyGridOp st op).1.kind st.1.start = CellKind.start ∧
    (applyGridOp st op).1.kind st.1.goal = CellKind.goal := by
  obtain ⟨g, s⟩ := st
  cases op with
  | placeW p =>
    exact ⟨g.placeWall_start p, g.placeWall_goal p,
      (Grid.placeWall_kind_ne (Or.inl hs)).trans hs,
      (Grid.placeWall_kind_ne (Or.inr hg)).trans hg⟩
  | removeW p =>
    exact ⟨g.removeWall_start p, g.removeWall_goal p,
      (Grid.removeWall_kind_ne (Or.inl hs)).trans hs,
      (Grid.removeWall_kind_ne (Or.inr hg)).trans hg⟩
  | mazeOp w =>
    exact ⟨rfl, rfl, (Grid.maze_kind_ne (Or.inl hs)).trans hs,
      (Grid.maze_kind_ne (Or.inr hg)).trans hg⟩
  | spawnW k =>
    exact ⟨g.spawn_start s k, g.spawn_goal s k,
      (Grid.spawn_kind_ne (Or.inl hs)).trans hs,
      (Grid.spawn_kind_ne (Or.inr hg)).trans hg⟩
  | fullResetOp =>
    exact ⟨rfl, rfl, (Grid.fullReset_kind_ne (Or.inl hs)).trans hs,
      (Grid.fullReset_kind_ne (Or.inr hg)).trans hg⟩

/-- **C6**: no sequence of topology-changing operations (`placeWall`,
`removeWall`, `generateRandomMaze`, `spawnRandomObstacle`, `fullReset`)
ever changes the kind of the start or goal cell: they stay `Start` and
`Goal` (in particular walkable, never `Wall`). -/
theorem gridOps_never_touch_start_goal (st : Grid × SState)
    (hs : st.1.kind st.1.start = CellKind.start)
    (hg : st.1.kind st.1.goal = CellKind.goal) (ops : List GridOp) :
    (applyGridOps st ops).1.start = st.1.start ∧
    (applyGridOps st ops).1.goal = st.1.goal ∧
    (applyGridOps st ops).1.kind st.1.start = CellKind.start ∧
    (applyGridOps st ops).1.kind st.1.goal = CellKind.goal := by
  induction ops generalizing st with
  | nil => exact ⟨rfl, rfl, hs, hg⟩
  | cons op ops ih =>
    obtain ⟨e1, e2, e3, e4⟩ := applyGridOp_preserves st op hs hg
    obtain ⟨f1, f2, f3, f4⟩ := ih (applyGridOp st op) (e1 ▸ e3) (e2 ▸ e4)
    have happ : applyGridOps st (op :: ops) = applyGridOps (applyGridOp st op) ops := rfl
    rw [happ]
    exact ⟨f1.trans e1, f2.trans e2, e1 ▸ f3, e2 ▸ f4⟩

/-- Witness for C6 at a concrete grid and operation sequence. -/
theorem gridOps_never_touch_start_goal_witness :
    (applyGridOps (newGrid 2 2, initS)
      [GridOp.placeW (0, 1), GridOp.spawnW 0, GridOp.fullResetOp]).1.kind
        (newGrid 2 2).start = CellKind.start ∧
    (applyGridOps (newGrid 2 2, initS)
      [GridOp.placeW (0, 1), GridOp.spawnW 0, GridOp.fullResetOp]).1.kind
        (newGrid 2 2).goal = CellKind.goal := by
  have := gridOps_never_touch_start_goal (newGrid 2 2, initS)
    (by decide) (by decide)
    [GridOp.placeW (0, 1), GridOp.spawnW 0, GridOp.fullResetOp]
  exact ⟨this.2.2.1, this.2.2.2⟩

/-! ### The blocked agent step (C8) -/

/-- **C8**: a `Moving` agent whose next path cell is a wall transitions
to `Blocked` (`moving := false`, `replanning := true`), `step` returns
`false`, and `pathIndex`, `cell`, `path` (and `reachedGoal`) are
unchanged. -/
theorem agent_step_blocked (a : Agent) (g : Grid) (c : Pos)
    (hm : a.moving = true)
    (hn : a.path[a.pathIndex + 1]? = some c)
    (hw : g.kind c = CellKind.wall) :
    a.step g = (false, { a with moving := false, replanning := true }) := by
  have hlt : a.pathIndex + 1 < a.path.length := by
    by_contra hno
    push_neg at hno
    rw [List.getElem?_eq_none hno] at hn
    exact absurd hn (by simp)
  have hgc : a.path[a.pathIndex + 1] = c := by
    have := List.getElem?_eq_getElem hlt
    rw [hn] at this
    exact (Option.some.injEq _ _ ▸ this).symm
  unfold Agent.step
  rw [if_neg, dif_neg (by omega : ¬ a.path.length ≤ a.pathIndex + 1)]
  · simp only [List.get_eq_getElem, hgc, hw, if_pos]
  · rintro (h | h)
    · rw [hm] at h
      exact absurd h (by simp)
    · rw [h] at hlt
      simp at hlt

/-- Witness for C8 on a concrete agent and grid. -/
theorem agent_step_blocked_witness :
    blockedAgent.step blockedGrid =
      (false, { blockedAgent with moving := false, replanning := true }) :=
  agent_step_blocked blockedAgent blockedGrid (0, 1) (by decide) (by decide) (by decide)

/-! ### Reset idempotence and determinism (C5) -/

/-- **C5** counterexample: on the empty 2×2 grid, calling
`resetSearchState` twice and then running the same A* search twice (the
literal protocol of the claim, with no reset between the two runs) gives
two different `SearchResult`s: the first finds the goal with cost 2, the
second returns `found = false` because the stale `g` values block every
relaxation. -/
theorem reset_twice_then_run_twice_differs :
    (astar g22 (g22.resetSearchState (g22.resetSearchState initS))
        g22.start g22.goal Heur.manhattan).1 ≠
    (astar g22
        (astar g22 (g22.resetSearchState (g22.resetSearchState initS))
          g22.start g22.goal Heur.manhattan).2
        g22.start g22.goal Heur.manhattan).1 := by
  decide

/-- **C5** amended: calling `resetSearchState()` twice in a row, then
running the same search twice *with `resetSearchState()` repeated before
the second run*, yields identical `SearchResult` values both times (for
every grid, algorithm, heuristic, origin and goal). -/
theorem reset_before_each_run_identical (g : Grid) (σ : SState)
    (algo : Algo) (hr : Heur) (a b : Pos) :
    (searchAlgo algo g (g.resetSearchState (g.resetSearchState σ)) a b hr).1 =
    (searchAlgo algo g
      (g.resetSearchState
        (searchAlgo algo g (g.resetSearchState (g.resetSearchState σ)) a b hr).2)
      a b hr).1 := rfl

/-! ### Reachability theory -/

theorem reachN_zero {g : Grid} {a b : Pos} : reachN g 0 a b ↔ a = b := by
  unfold reachN reachB
  simp

theorem reachN_succ {g : Grid} {n : ℕ} {a b : Pos} :
    reachN g (n + 1) a b ↔ ∃ c ∈ g.neighbors a, reachN g n c b := by
  unfold reachN
  rw [show reachB g (n + 1) a b = (g.neighbors a).any fun c => reachB g n c b from rfl,
    List.any_eq_true]

theorem reachN_refl (g : Grid) (a : Pos) : reachN g 0 a a := reachN_zero.2 rfl

theorem reachN_one {g : Grid} {a c : Pos} (h : c ∈ g.neighbors a) : reachN g 1 a c :=
  reachN_succ.2 ⟨c, h, reachN_refl g c⟩

theorem reachN_trans {g : Grid} {m n : ℕ} {a b c : Pos}
    (h1 : reachN g m a b) (h2 : reachN g n b c) : reachN g (m + n) a c := by
  induction m generalizing a with
  | zero =>
    rw [reachN_zero] at h1
    subst h1
    simpa using h2
  | succ k ih =>
    rw [reachN_succ] at h1
    obtain ⟨d, hd, hr⟩ := h1
    rw [show k + 1 + n = (k + n) + 1 by omega, reachN_succ]
    exact ⟨d, hd, ih hr⟩

theorem reachN_snoc {g : Grid} {n : ℕ} {a b c : Pos}
    (h1 : reachN g n a b) (h2 : c ∈ g.neighbors b) : reachN g (n + 1) a c :=
  reachN_trans h1 (reachN_one h2)

theorem getLast?_cons_of_ne_nil {α : Type} {l : List α} (a : α) (h : l ≠ []) :
    (a :: l).getLast? = l.getLast? := by
  cases l with
  | nil => exact absurd rfl h
  | cons x t => rfl

theorem reachN_iff_route {g : Grid} {n : ℕ} {a b : Pos} :
    reachN g n a b ↔ ∃ l, l.length = n + 1 ∧ ValidRoute g a b l := by
  induction n generalizing a with
  | zero =>
    rw [reachN_zero]
    constructor
    · rintro rfl
      exact ⟨[a], rfl, rfl, rfl, List.chain'_singleton a⟩
    · rintro ⟨l, hlen, h1, h2, _⟩
      match l, hlen with
      | [x], _ =>
        simp only [List.head?_cons, Option.some.injEq] at h1
        simp only [List.getLast?_singleton, Option.some.injEq] at h2
        rw [← h1, ← h2]
  | succ k ih =>
    rw [reachN_succ]
    constructor
    · rintro ⟨c, hc, hr⟩
      obtain ⟨l, hlen, hh, hl, hch⟩ := ih.1 hr
      have hlne : l ≠ [] := by
        intro h
        rw [h] at hlen
        simp at hlen
      refine ⟨a :: l, by simp [hlen], rfl, ?_, ?_⟩
      · rw [getLast?_cons_of_ne_nil _ hlne]
        exact hl
      · rw [List.chain'_cons']
        refine ⟨?_, hch⟩
        intro y hy
        rw [hh] at hy
        simp only [Option.mem_def, Option.some.injEq] at hy
        exact hy ▸ hc
    · rintro ⟨l, hlen, hh, hl, hch⟩
      match l, hlen with
      | x :: t, hlen =>
        simp only [List.head?_cons, Option.some.injEq] at hh
        subst hh
        have htne : t ≠ [] := by
          intro h
          rw [h] at hlen
          simp at hlen
        obtain ⟨c, t', rfl⟩ := List.exists_cons_of_ne_nil htne
        rw [List.chain'_cons] at hch
        refine ⟨c, hch.1, ih.2 ⟨c :: t', by simpa using hlen, rfl, ?_, hch.2⟩⟩
        rw [getLast?_cons_of_ne_nil _ (by simp)] at hl
        exact hl

theorem chain_mem_inB {g : Grid} :
    ∀ (l : List Pos) (a : Pos), l.head? = some a →
      l.Chain' (fun p q => q ∈ g.neighbors p) → g.inB a → ∀ p ∈ l, g.inB p := by
  intro l
  induction l with
  | nil =>
    intro a _ _ _ p hp
    simp at hp
  | cons x t ih =>
    intro a hh hch ha p hp
    simp only [List.head?_cons, Option.some.injEq] at hh
    rcases List.mem_cons.1 hp with rfl | hp
    · exact hh ▸ ha
    · cases t with
      | nil => simp at hp
      | cons y t' =>
        rw [List.chain'_cons] at hch
        exact ih y rfl hch.2 (g.neighbors_inB hch.1) p hp

theorem route_mem_inB {g : Grid} {a b : Pos} {l : List Pos}
    (hv : ValidRoute g a b l) (ha : g.inB a) : ∀ p ∈ l, g.inB p :=
  chain_mem_inB l a hv.1 hv.2.2 ha

theorem exists_dup_split {l : List Pos} (h : ¬ l.Nodup) :
    ∃ (xs : List Pos) (x : Pos) (ys zs : List Pos), l = xs ++ x :: (ys ++ x :: zs) := by
  induction l with
  | nil => exact absurd List.nodup_nil h
  | cons a t ih =>
    by_cases hat : a ∈ t
    · obtain ⟨s, u, rfl⟩ := List.append_of_mem hat
      exact ⟨[], a, s, u, by simp⟩
    · have : ¬ t.Nodup := fun hn => h (List.nodup_cons.2 ⟨hat, hn⟩)
      obtain ⟨xs, x, ys, zs, rfl⟩ := ih this
      exact ⟨a :: xs, x, ys, zs, by simp⟩

theorem route_splice {g : Grid} {a b : Pos} {xs ys zs : List Pos} {x : Pos}
    (hv : ValidRoute g a b (xs ++ x :: (ys ++ x :: zs))) :
    ValidRoute g a b (xs ++ x :: zs) := by
  obtain ⟨hh, hl, hc⟩ := hv
  refine ⟨?_, ?_, ?_⟩
  · cases xs with
    | nil => simpa using hh
    | cons u t => simpa using hh
  · rw [List.getLast?_append_of_ne_nil _ (by simp)] at hl ⊢
    rw [show (x :: (ys ++ x :: zs)) = (x :: ys) ++ (x :: zs) by simp,
      List.getLast?_append_of_ne_nil _ (by simp)] at hl
    exact hl
  · rw [List.chain'_append] at hc ⊢
    obtain ⟨h1, h2, h3⟩ := hc
    refine ⟨h1, ?_, ?_⟩
    · rw [show (x :: (ys ++ x :: zs)) = (x :: ys) ++ (x :: zs) by simp] at h2
      exact h2.right_of_append
    · intro u hu y hy
      apply h3 u hu
      simpa using hy

theorem reachN_shorten {g : Grid} {a b : Pos} (ha : g.inB a) :
    ∀ n, reachN g n a b → ∃ m, m ≤ n ∧ m < g.size ∧ reachN g m a b := by
  intro n
  induction n using Nat.strong_induction_on with
  | _ n ih =>
    intro hr
    by_cases hn : n < g.size
    · exact ⟨n, le_refl n, hn, hr⟩
    · obtain ⟨l, hlen, hv⟩ := reachN_iff_route.1 hr
      have hmem := route_mem_inB hv ha
      have hnd : ¬ l.Nodup := by
        intro hnd
        have h1 : l.toFinset.card = l.length := List.toFinset_card_of_nodup hnd
        have h2 : l.toFinset ⊆ g.posFinset := by
          intro p hp
          rw [List.mem_toFinset] at hp
          exact Grid.mem_posFinset.2 (hmem p hp)
        have := Finset.card_le_card h2
        rw [h1, Grid.card_posFinset, hlen] at this
        omega
      obtain ⟨xs, x, ys, zs, rfl⟩ := exists_dup_split hnd
      have hv' := route_splice hv
      have hlen2 : (xs ++ x :: (ys ++ x :: zs)).length = n + 1 := hlen
      have hlen3 : (xs ++ x :: zs).length = (xs ++ x :: zs).length - 1 + 1 := by
        have : 0 < (xs ++ x :: zs).length := by simp
        omega
      have hr' : reachN g ((xs ++ x :: zs).length - 1) a b :=
        reachN_iff_route.2 ⟨xs ++ x :: zs, hlen3, hv'⟩
      have hlt : (xs ++ x :: zs).length - 1 < n := by
        simp only [List.length_append, List.length_cons] at hlen2 ⊢
        omega
      obtain ⟨m, hm1, hm2, hm3⟩ := ih _ hlt hr'
      exact ⟨m, by omega, hm2, hm3⟩

theorem reachable_iff_reachableB {g : Grid} {a b : Pos} (ha : g.inB a) :
    Reachable g a b ↔ ReachableB g a b := by
  constructor
  · rintro ⟨n, hn⟩
    obtain ⟨m, _, hm2, hm3⟩ := reachN_shorten ha n hn
    exact ⟨m, by unfold Grid.size at hm2 ⊢; omega, hm3⟩
  · rintro ⟨n, _, hn⟩
    exact ⟨n, hn⟩

/-! ### The shortest-distance function `mindist` -/

theorem mindist_spec {g : Grid} {a b : Pos} {m : ℕ} (ha : g.inB a)
    (h : mindist g a b = some m) :
    reachN g m a b ∧ ∀ k, reachN g k a b → m ≤ k := by
  unfold mindist at h
  split at h
  next hex =>
    injection h with h
    subst h
    refine ⟨(Nat.find_spec hex).2, ?_⟩
    intro k hk
    obtain ⟨m', hm'1, hm'2, hm'3⟩ := reachN_shorten ha k hk
    have : Nat.find hex ≤ m' := Nat.find_le ⟨by omega, hm'3⟩
    omega
  next => exact absurd h (by simp)

theorem mindist_isSome {g : Grid} {a b : Pos} (ha : g.inB a)
    (h : Reachable g a b) : ∃ m, mindist g a b = some m := by
  unfold mindist
  rw [dif_pos ((reachable_iff_reachableB ha).1 h)]
  exact ⟨_, rfl⟩

theorem mindist_eq_none {g : Grid} {a b : Pos} (ha : g.inB a)
    (h : mindist g a b = none) : ¬ Reachable g a b := by
  unfold mindist at h
  split at h
  next => exact absurd h (by simp)
  next hex => exact fun hr => hex ((reachable_iff_reachableB ha).1 hr)

theorem mindist_le {g : Grid} {a b : Pos} {k : ℕ} (ha : g.inB a)
    (h : reachN g k a b) : ∃ m, m ≤ k ∧ mindist g a b = some m := by
  obtain ⟨m, hm⟩ := mindist_isSome ha ⟨k, h⟩
  exact ⟨m, (mindist_spec ha hm).2 k h, hm⟩

theorem mindist_self {g : Grid} {a : Pos} (ha : g.inB a) : mindist g a a = some 0 := by
  obtain ⟨m, hm1, hm2⟩ := mindist_le ha (reachN_refl g a)
  rw [hm2]
  congr 1
  omega

theorem mindist_le_of_neighbor {g : Grid} {a b c : Pos} {j : ℕ} (ha : g.inB a)
    (hc : c ∈ g.neighbors a) (hj : mindist g c b = some j) :
    ∃ m, m ≤ j + 1 ∧ mindist g a b = some m := by
  have hrc := (mindist_spec (g.neighbors_inB hc) hj).1
  have : reachN g (j + 1) a b := reachN_succ.2 ⟨c, hc, hrc⟩
  exact mindist_le ha this

theorem mindist_snoc {g : Grid} {a b c : Pos} {m : ℕ} (ha : g.inB a)
    (hm : mindist g a b = some m) (hc : c ∈ g.neighbors b) :
    ∃ m', m' ≤ m + 1 ∧ mindist g a c = some m' :=
  mindist_le ha (reachN_snoc (mindist_spec ha hm).1 hc)

theorem mindist_succ_exists {g : Grid} {a b : Pos} {k : ℕ} (ha : g.inB a)
    (h : mindist g a b = some (k + 1)) :
    ∃ c ∈ g.neighbors a, mindist g c b = some k := by
  obtain ⟨hr, hmin⟩ := mindist_spec ha h
  rw [reachN_succ] at hr
  obtain ⟨c, hc, hrc⟩ := hr
  obtain ⟨j, hj1, hj2⟩ := mindist_le (g.neighbors_inB hc) hrc
  refine ⟨c, hc, ?_⟩
  rw [hj2]
  congr 1
  have hrj := (mindist_spec (g.neighbors_inB hc) hj2).1
  have := hmin (j + 1) (reachN_succ.2 ⟨c, hc, hrj⟩)
  omega

/-! ### Heuristic consistency -/

theorem sqrt_hsq_manhattan (p t : Pos) :
    Real.sqrt ((hsq .manhattan p t : ℕ) : ℝ) = (mdist p t : ℝ) := by
  have h1 : ((hsq .manhattan p t : ℕ) : ℝ) = ((mdist p t : ℕ) : ℝ) ^ 2 := by
    simp only [hsq]
    push_cast
    ring
  rw [h1, Real.sqrt_sq (by positivity)]

theorem euclid_step_le {x x' z : ℕ} (hx : x' ≤ x + 1) :
    Real.sqrt ((x' * x' + z * z : ℕ) : ℝ) ≤ 1 + Real.sqrt ((x * x + z * z : ℕ) : ℝ) := by
  have h0 : Real.sqrt ((x' * x' + z * z : ℕ) : ℝ) ≤
      Real.sqrt (((x + 1) * (x + 1) + z * z : ℕ) : ℝ) := by
    apply Real.sqrt_le_sqrt
    exact_mod_cast Nat.add_le_add_right (Nat.mul_le_mul hx hx) _
  refine h0.trans ?_
  rw [Real.sqrt_le_left (by positivity)]
  have hxle : (x : ℝ) ≤ Real.sqrt ((x * x + z * z : ℕ) : ℝ) := by
    rw [Real.le_sqrt (by positivity) (by positivity)]
    push_cast
    nlinarith
  have expand : (1 + Real.sqrt ((x * x + z * z : ℕ) : ℝ)) ^ 2
      = 1 + 2 * Real.sqrt ((x * x + z * z : ℕ) : ℝ) + ((x * x + z * z : ℕ) : ℝ) := by
    rw [add_sq, Real.sq_sqrt (by positivity)]
    ring
  rw [expand]
  push_cast at hxle ⊢
  nlinarith [hxle]

theorem consistent_step {g : Grid} (h : Heur) {p q : Pos} (t : Pos)
    (hq : q ∈ g.neighbors p) :
    Real.sqrt ((hsq h p t : ℕ) : ℝ) ≤ 1 + Real.sqrt ((hsq h q t : ℕ) : ℝ) := by
  have hadj := (Grid.mem_neighbors.1 hq).2.2
  cases h with
  | manhattan =>
    rw [sqrt_hsq_manhattan, sqrt_hsq_manhattan]
    have hle : mdist p t ≤ mdist q t + 1 := by
      unfold mdist natDist
      rcases hadj with ⟨h1, h2⟩ | ⟨h1, h2⟩ | ⟨h1, h2⟩ | ⟨h1, h2⟩ <;> omega
    calc (mdist p t : ℝ) ≤ ((mdist q t + 1 : ℕ) : ℝ) := by exact_mod_cast hle
    _ = 1 + (mdist q t : ℝ) := by push_cast; ring
  | euclidean =>
    have hcase :
        (natDist p.1 t.1 ≤ natDist q.1 t.1 + 1 ∧ natDist p.2 t.2 = natDist q.2 t.2) ∨
        (natDist p.1 t.1 = natDist q.1 t.1 ∧ natDist p.2 t.2 ≤ natDist q.2 t.2 + 1) := by
      unfold natDist
      rcases hadj with ⟨h1, h2⟩ | ⟨h1, h2⟩ | ⟨h1, h2⟩ | ⟨h1, h2⟩ <;>
        [left; left; right; right] <;> constructor <;> omega
    show Real.sqrt ((hsq .euclidean p t : ℕ) : ℝ) ≤ 1 + Real.sqrt ((hsq .euclidean q t : ℕ) : ℝ)
    simp only [hsq]
    rcases hcase with ⟨h1, h2⟩ | ⟨h1, h2⟩
    · rw [h2]
      exact euclid_step_le h1
    · rw [h1]
      rw [show natDist q.1 t.1 * natDist q.1 t.1 + natDist p.2 t.2 * natDist p.2 t.2 =
          natDist p.2 t.2 * natDist p.2 t.2 + natDist q.1 t.1 * natDist q.1 t.1 by omega,
        show natDist q.1 t.1 * natDist q.1 t.1 + natDist q.2 t.2 * natDist q.2 t.2 =
          natDist q.2 t.2 * natDist q.2 t.2 + natDist q.1 t.1 * natDist q.1 t.1 by omega]
      exact euclid_step_le h2

theorem hsq_lipschitz {g : Grid} (h : Heur) {k : ℕ} {q x : Pos} (t : Pos)
    (hr : reachN g k q x) :
    Real.sqrt ((hsq h q t : ℕ) : ℝ) ≤ k + Real.sqrt ((hsq h x t : ℕ) : ℝ) := by
  induction k generalizing q with
  | zero =>
    rw [reachN_zero] at hr
    subst hr
    simp
  | succ n ih =>
    rw [reachN_succ] at hr
    obtain ⟨c, hc, hrc⟩ := hr
    have h1 := consistent_step h t hc
    have h2 := ih hrc
    push_cast
    linarith

theorem hsq_admissible {g : Grid} (h : Heur) {k : ℕ} {p t : Pos} (hr : reachN g k p t) :
    Real.sqrt ((hsq h p t : ℕ) : ℝ) ≤ k := by
  have h1 := hsq_lipschitz h t hr
  rw [hsq_self, Nat.cast_zero, Real.sqrt_zero] at h1
  linarith

/-! ### Path reconstruction -/

theorem markPath_g (s : SState) (l : List Pos) : (markPath s l).g = s.g := by
  induction l generalizing s with
  | nil => rfl
  | cons x t ih => exact ih _

theorem markPath_parent (s : SState) (l : List Pos) : (markPath s l).parent = s.parent := by
  induction l generalizing s with
  | nil => rfl
  | cons x t ih => exact ih _

theorem markPath_onPath_mono {s : SState} {p : Pos} (l : List Pos)
    (h : s.onPath p = true) : (markPath s l).onPath p = true := by
  induction l generalizing s with
  | nil => exact h
  | cons x t ih =>
    rw [show markPath s (x :: t) =
      markPath { s with onPath := upd s.onPath x true } t from rfl]
    apply ih
    by_cases hp : p = x
    · subst hp
      exact upd_same _ _ _
    · show upd s.onPath x true p = true
      rw [upd_ne _ _ hp]
      exact h

theorem markPath_onPath_mem {s : SState} {p : Pos} {l : List Pos}
    (h : p ∈ l) : (markPath s l).onPath p = true := by
  induction l generalizing s with
  | nil => simp at h
  | cons x t ih =>
    rcases List.mem_cons.1 h with rfl | h
    · rw [show markPath s (p :: t) =
        markPath { s with onPath := upd s.onPath p true } t from rfl]
      apply markPath_onPath_mono
      exact upd_same _ _ _
    · rw [show markPath s (x :: t) =
        markPath { s with onPath := upd s.onPath x true } t from rfl]
      exact ih h

theorem markPath_onPath_not_mem {s : SState} {p : Pos} {l : List Pos}
    (h : p ∉ l) : (markPath s l).onPath p = s.onPath p := by
  induction l generalizing s with
  | nil => rfl
  | cons x t ih =>
    have hx : p ≠ x := fun hc => h (hc ▸ List.mem_cons_self _ _)
    have ht : p ∉ t := fun hc => h (List.mem_cons_of_mem _ hc)
    rw [show markPath s (x :: t) =
      markPath { s with onPath := upd s.onPath x true } t from rfl, ih ht]
    exact upd_ne _ _ hx

theorem reachN_succ_rev {g : Grid} : ∀ {n : ℕ} {a b : Pos}, reachN g (n + 1) a b →
    ∃ c, reachN g n a c ∧ b ∈ g.neighbors c := by
  intro n
  induction n with
  | zero =>
    intro a b h
    rw [reachN_succ] at h
    obtain ⟨c, hc, hr⟩ := h
    rw [reachN_zero] at hr
    subst hr
    exact ⟨a, reachN_refl g a, hc⟩
  | succ k ih =>
    intro a b h
    rw [reachN_succ] at h
    obtain ⟨c, hc, hr⟩ := h
    obtain ⟨d, hd1, hd2⟩ := ih hr
    exact ⟨d, reachN_succ.2 ⟨c, hc, hd1⟩, hd2⟩

theorem visitedSet_card_le (gr : Grid) (vis : Pos → Bool) :
    (visitedSet gr vis).card ≤ gr.size := by
  calc (visitedSet gr vis).card ≤ gr.posFinset.card := Finset.card_filter_le _ _
  _ = gr.size := gr.card_posFinset

theorem visitedSet_upd_card {gr : Grid} {vis : Pos → Bool} {c : Pos}
    (hin : gr.inB c) (hnv : vis c = false) :
    (visitedSet gr (upd vis c true)).card = (visitedSet gr vis).card + 1 := by
  unfold visitedSet
  have hins : gr.posFinset.filter (fun p => upd vis c true p = true) =
      insert c (gr.posFinset.filter (fun p => vis p = true)) := by
    ext p
    simp only [Finset.mem_filter, Finset.mem_insert]
    by_cases hp : p = c
    · subst hp
      simp [upd, Grid.mem_posFinset.2 hin]
    · rw [upd_ne _ _ hp]
      constructor
      · rintro ⟨h1, h2⟩; exact Or.inr ⟨h1, h2⟩
      · rintro (rfl | ⟨h1, h2⟩)
        · exact absurd rfl hp
        · exact ⟨h1, h2⟩
  rw [hins, Finset.card_insert_of_not_mem]
  intro hc
  rw [Finset.mem_filter] at hc
  rw [hc.2] at hnv
  exact absurd hnv (by simp)

theorem reconAux_spec (gr : Grid) (s : SState) (startPos : Pos)
    (hchain : ∀ p q, s.parent p = some q →
      p ∈ gr.neighbors q ∧ ∃ w, s.g q = some w ∧ s.g p = some (w + 1))
    (hroot : ∀ p v, s.parent p = none → s.g p = some v → p = startPos ∧ v = 0) :
    ∀ D : ℕ, ∀ (p : Pos) (acc : List Pos) (fuel : ℕ), s.g p = some D → D ≤ fuel →
      ∃ l, reconAux s fuel p acc = l ++ acc ∧ l.length = D + 1 ∧
        l.head? = some startPos ∧ l.getLast? = some p ∧
        l.Chain' (fun a b => b ∈ gr.neighbors a) := by
  intro D
  induction D using Nat.strong_induction_on with
  | _ D ih =>
    intro p acc fuel hg hfuel
    cases hpar : s.parent p with
    | none =>
      obtain ⟨hp, hD⟩ := hroot p D hpar hg
      subst hp
      subst hD
      have hred : reconAux s fuel p acc = p :: acc := by
        cases fuel with
        | zero => rfl
        | succ f => simp [reconAux, hpar]
      exact ⟨[p], by simpa using hred, rfl, rfl, rfl, List.chain'_singleton p⟩
    | some q =>
      obtain ⟨hnb, w, hgq, hgp⟩ := hchain p q hpar
      have hD : D = w + 1 := by
        rw [hg] at hgp
        injection hgp
      subst hD
      cases fuel with
      | zero => omega
      | succ f =>
        have hrec : reconAux s (f + 1) p acc = reconAux s f q (p :: acc) := by
          simp [reconAux, hpar]
        obtain ⟨l2, h1, h2, h3, h4, h5⟩ := ih w (by omega) q (p :: acc) f hgq (by omega)
        have hl2ne : l2 ≠ [] := by
          intro hc
          rw [hc] at h2
          simp at h2
        refine ⟨l2 ++ [p], ?_, ?_, ?_, ?_, ?_⟩
        · rw [hrec, h1]
          simp
        · simp only [List.length_append, List.length_singleton, h2]
        · rw [List.head?_append_of_ne_nil _ hl2ne]
          exact h3
        · simp [List.getLast?_concat]
        · refine List.Chain'.append h5 (List.chain'_singleton p) ?_
          intro x hx y hy
          rw [h4] at hx
          simp only [Option.mem_def, Option.some.injEq, List.head?_cons] at hx hy
          subst hx
          subst hy
          exact hnb

/-! ### Greedy loop: relaxation step -/

theorem sum_upd_le {s : Finset Pos} {f f2 : Pos → ℕ} {c : Pos} {d : ℕ} (hc : c ∈ s)
    (hsame : ∀ p ∈ s, p ≠ c → f2 p = f p) (hle : f2 c + d ≤ f c) :
    (∑ p ∈ s, f2 p) + d ≤ ∑ p ∈ s, f p := by
  rw [← Finset.sum_erase_add s f2 hc, ← Finset.sum_erase_add s f hc]
  have heq : ∑ p ∈ s.erase c, f2 p = ∑ p ∈ s.erase c, f p := by
    apply Finset.sum_congr rfl
    intro p hp
    exact hsame p (Finset.mem_of_mem_erase hp) (Finset.ne_of_mem_erase hp)
  omega

/-- One `greedyRelax` step preserves the mid-expansion invariant, keeps
the visited set, grows `inOpen` and the heap monotonically, leaves the
relaxed neighbour visited-or-open, and does not increase the measure. -/
theorem greedyRelax_step {gr : Grid} {startPos goalPos cur : Pos} {h : Heur}
    {st : GreedySt} (inv : GMid gr startPos goalPos cur st) {nb : Pos}
    (hnb : nb ∈ gr.neighbors cur) :
    GMid gr startPos goalPos cur (greedyRelax goalPos h cur st nb) ∧
    (greedyRelax goalPos h cur st nb).visited = st.visited ∧
    (∀ p, st.s.inOpen p = true → (greedyRelax goalPos h cur st nb).s.inOpen p = true) ∧
    ((greedyRelax goalPos h cur st nb).visited nb = true ∨
      (greedyRelax goalPos h cur st nb).s.inOpen nb = true) ∧
    (∀ ent ∈ st.heap, ent ∈ (greedyRelax goalPos h cur st nb).heap) ∧
    greedyMeasure gr (greedyRelax goalPos h cur st nb) ≤ greedyMeasure gr st := by
  by_cases hvis : st.visited nb = true
  · rw [show greedyRelax goalPos h cur st nb = st by
      unfold greedyRelax; rw [if_pos hvis]]
    exact ⟨inv, rfl, fun p hp => hp, Or.inl hvis, fun e he => he, le_refl _⟩
  · have hvis' : st.visited nb = false := by
      cases hv : st.visited nb
      · rfl
      · exact absurd hv hvis
    have hnbne : nb ≠ cur := by
      rintro rfl
      rw [inv.curVis] at hvis'
      exact absurd hvis' (by simp)
    obtain ⟨w, hw⟩ := inv.visitedG cur inv.curVis
    by_cases hcond : st.s.inOpen nb = false ∨ ogLtB ((st.s.g cur).map (· + 1)) (st.s.g nb) = true
    · -- push branch
      have hmap : (st.s.g cur).map (· + 1) = some (w + 1) := by
        rw [hw]; rfl
      have holdg : st.s.g nb = none ∨ ∃ u, st.s.g nb = some u ∧ w + 1 < u := by
        rcases hcond with hc1 | hc2
        · exact Or.inl (inv.notOpenG nb hc1 hvis')
        · rw [hmap] at hc2
          cases hu : st.s.g nb with
          | none => exact Or.inl rfl
          | some u =>
            rw [hu] at hc2
            rw [ogLtB_some_some, decide_eq_true_eq] at hc2
            exact Or.inr ⟨u, rfl, hc2⟩
      have hnbstart : nb ≠ startPos := by
        rintro rfl
        rcases holdg with hg0 | ⟨u, hgu, hlt⟩
        · rw [inv.startG] at hg0
          exact absurd hg0 (by simp)
        · rw [inv.startG] at hgu
          injection hgu with hgu
          omega
      have hwcard : w + 1 ≤ (visitedSet gr st.visited).card :=
        inv.gBoundVis cur w hw inv.curVis
      have hcardle := visitedSet_card_le gr st.visited
      have hnbin : gr.inB nb := gr.neighbors_inB hnb
      have hred : greedyRelax goalPos h cur st nb =
          { st with
            s := { st.s with
                   hsq := upd st.s.hsq nb (hsq h nb goalPos),
                   f := upd st.s.f nb (some (0, hsq h nb goalPos)),
                   g := upd st.s.g nb (some (w + 1)),
                   parent := upd st.s.parent nb (some cur),
                   inOpen := upd st.s.inOpen nb true }
            counter := st.counter + 1
            heap := st.heap ++ [⟨(0, hsq h nb goalPos), st.counter + 1, nb⟩] } := by
        unfold greedyRelax
        rw [if_neg (by rw [hvis']; simp), if_pos hcond, hmap]
      rw [hred]
      dsimp only
      refine ⟨?_, rfl, ?_, ?_, ?_, ?_⟩
      · -- the invariant
        refine
          { startOpen := ?_
            startG := ?_
            startParent := ?_
            heapG := ?_
            heapIn := ?_
            gReach := ?_
            gBound := ?_
            gBoundVis := ?_
            pChain := ?_
            parentNone := ?_
            visitedIn := inv.visitedIn
            visitedG := ?_
            notOpenG := ?_
            openEntry := ?_
            closure' := ?_
            curVis := inv.curVis
            goalNotVis := inv.goalNotVis
            nodesEq := inv.nodesEq }
        · dsimp only
          rcases inv.startOpen with ho | hv
          · left
            by_cases hsp : startPos = nb
            · rw [hsp]; exact upd_same _ _ _
            · rw [upd_ne _ _ hsp]; exact ho
          · exact Or.inr hv
        · dsimp only
          show upd st.s.g nb (some (w + 1)) startPos = some 0
          rw [upd_ne _ _ (Ne.symm hnbstart)]
          exact inv.startG
        · dsimp only
          show upd st.s.parent nb (some cur) startPos = none
          rw [upd_ne _ _ (Ne.symm hnbstart)]
          exact inv.startParent
        · dsimp only
          intro ent hent
          rcases List.mem_append.1 hent with hold | hnew
          · by_cases hp : ent.pos = nb
            · exact ⟨w + 1, by rw [hp]; exact upd_same _ _ _⟩
            · obtain ⟨v, hv⟩ := inv.heapG ent hold
              exact ⟨v, by rw [upd_ne _ _ hp]; exact hv⟩
          · rw [List.mem_singleton] at hnew
            subst hnew
            exact ⟨w + 1, upd_same _ _ _⟩
        · dsimp only
          intro ent hent
          rcases List.mem_append.1 hent with hold | hnew
          · exact inv.heapIn ent hold
          · rw [List.mem_singleton] at hnew
            subst hnew
            exact hnbin
        · dsimp only
          intro p v hp
          by_cases hpe : p = nb
          · subst hpe
            rw [upd_same] at hp
            injection hp with hp
            subst hp
            exact reachN_snoc (inv.gReach cur w hw) hnb
          · rw [upd_ne _ _ hpe] at hp
            exact inv.gReach p v hp
        · dsimp only
          intro p v hp
          by_cases hpe : p = nb
          · subst hpe
            rw [upd_same] at hp
            injection hp with hp
            omega
          · rw [upd_ne _ _ hpe] at hp
            exact inv.gBound p v hp
        · dsimp only
          intro p v hp hpv
          by_cases hpe : p = nb
          · subst hpe
            rw [hpv] at hvis'
            exact absurd hvis' (by simp)
          · rw [upd_ne _ _ hpe] at hp
            exact inv.gBoundVis p v hp hpv
        · dsimp only
          intro p q hpq
          by_cases hpe : p = nb
          · subst hpe
            rw [upd_same] at hpq
            injection hpq with hpq
            subst hpq
            refine ⟨hnb, inv.curVis, w, ?_, ?_⟩
            · rw [upd_ne _ _ hnbne.symm]
              exact hw
            · exact upd_same _ _ _
          · rw [upd_ne _ _ hpe] at hpq
            obtain ⟨h1, h2, w', h3, h4⟩ := inv.pChain p q hpq
            have hqne : q ≠ nb := by
              rintro rfl
              rw [h2] at hvis'
              exact absurd hvis' (by simp)
            refine ⟨h1, h2, w', ?_, ?_⟩
            · rw [upd_ne _ _ hqne]; exact h3
            · rw [upd_ne _ _ hpe]; exact h4
        · dsimp only
          intro p v hpar hg
          by_cases hpe : p = nb
          · subst hpe
            rw [upd_same] at hpar
            exact absurd hpar (by simp)
          · rw [upd_ne _ _ hpe] at hpar
            rw [upd_ne _ _ hpe] at hg
            exact inv.parentNone p v hpar hg
        · dsimp only
          intro p hpv
          have hpe : p ≠ nb := by
            rintro rfl
            rw [hpv] at hvis'
            exact absurd hvis' (by simp)
          obtain ⟨v, hv⟩ := inv.visitedG p hpv
          exact ⟨v, by rw [upd_ne _ _ hpe]; exact hv⟩
        · dsimp only
          intro p hop hpv
          have hpe : p ≠ nb := by
            rintro rfl
            rw [upd_same] at hop
            exact absurd hop (by simp)
          rw [upd_ne _ _ hpe] at hop
          rw [upd_ne _ _ hpe]
          exact inv.notOpenG p hop hpv
        · dsimp only
          intro p hop hpv
          by_cases hpe : p = nb
          · subst hpe
            exact ⟨⟨(0, hsq h p goalPos), st.counter + 1, p⟩,
              List.mem_append.2 (Or.inr (List.mem_singleton.2 rfl)), rfl⟩
          · rw [upd_ne _ _ hpe] at hop
            obtain ⟨ent, hent, hpos⟩ := inv.openEntry p hop hpv
            exact ⟨ent, List.mem_append.2 (Or.inl hent), hpos⟩
        · dsimp only
          intro p hpv hpne nb' hnb'
          rcases inv.closure' p hpv hpne nb' hnb' with h1 | h1
          · exact Or.inl h1
          · right
            by_cases hpe : nb' = nb
            · rw [hpe]; exact upd_same _ _ _
            · rw [upd_ne _ _ hpe]; exact h1
      · intro p hp
        by_cases hpe : p = nb
        · rw [hpe]; exact upd_same _ _ _
        · show upd st.s.inOpen nb true p = true
          rw [upd_ne _ _ hpe]; exact hp
      · right
        exact upd_same _ _ _
      · intro ent hent
        exact List.mem_append.2 (Or.inl hent)
      · -- the measure does not increase
        unfold greedyMeasure
        dsimp only
        simp only [List.length_append, List.length_singleton]
        have hkey :
            (∑ p ∈ gr.posFinset,
              (gPhi gr (upd st.s.g nb (some (w + 1)) p) +
                (if upd st.s.inOpen nb true p then 0 else 1) +
                (if st.visited p then 0 else 2))) + 1 ≤
            ∑ p ∈ gr.posFinset,
              (gPhi gr (st.s.g p) + (if st.s.inOpen p then 0 else 1) +
                (if st.visited p then 0 else 2)) := by
          apply sum_upd_le (Grid.mem_posFinset.2 hnbin)
          · intro p hp hpe
            rw [upd_ne _ _ hpe, upd_ne _ _ hpe]
          · rw [upd_same, upd_same]
            have hnewphi : gPhi gr (some (w + 1)) = w + 1 := by
              show min (w + 1) (gr.size + 1) = w + 1
              omega
            rcases holdg with hg0 | ⟨u, hgu, hlt⟩
            · rw [hg0, hnewphi]
              have hzn : gPhi gr none = gr.size + 2 := rfl
              rw [hzn, if_pos rfl]
              omega
            · rw [hgu, hnewphi]
              have hu := inv.gBound nb u hgu
              have hgz : gPhi gr (some u) = u := by
                show min u (gr.size + 1) = u
                omega
              rw [hgz, if_pos rfl]
              omega
        omega
    · -- no-push branch: only h and f change
      have hred : greedyRelax goalPos h cur st nb =
          { st with
            s := { st.s with
                   hsq := upd st.s.hsq nb (hsq h nb goalPos),
                   f := upd st.s.f nb (some (0, hsq h nb goalPos)) } } := by
        unfold greedyRelax
        rw [if_neg (by rw [hvis']; simp), if_neg hcond]
      rw [hred]
      have hopen : st.s.inOpen nb = true := by
        rcases hv : st.s.inOpen nb with _ | _
        · exact absurd (Or.inl hv) hcond
        · rfl
      refine ⟨?_, rfl, fun p hp => hp, Or.inr hopen, fun e he => he, le_refl _⟩
      exact
        { startOpen := inv.startOpen
          startG := inv.startG
          startParent := inv.startParent
          heapG := inv.heapG
          heapIn := inv.heapIn
          gReach := inv.gReach
          gBound := inv.gBound
          gBoundVis := inv.gBoundVis
          pChain := inv.pChain
          parentNone := inv.parentNone
          visitedIn := inv.visitedIn
          visitedG := inv.visitedG
          notOpenG := inv.notOpenG
          openEntry := inv.openEntry
          closure' := inv.closure'
          curVis := inv.curVis
          goalNotVis := inv.goalNotVis
          nodesEq := inv.nodesEq }

/-! ### Greedy loop: iteration lemmas -/

theorem popMin_mem_rest {l : List Entry} {m : Entry} {r : List Entry}
    (h : popMin l = some (m, r)) {x : Entry} (hx : x ∈ l) (hne : x ≠ m) : x ∈ r := by
  have hx' := (popMin_perm h).mem_iff.1 hx
  rcases List.mem_cons.1 hx' with h1 | h1
  · exact absurd h1 hne
  · exact h1

theorem greedyGo_none {gr : Grid} {goalPos : Pos} {h : Heur} {fuel : ℕ} {st : GreedySt}
    (hpop : popMin st.heap = none) :
    greedyGo gr goalPos h (fuel + 1) st = (SearchResult.init st.nodes, st.s) := by
  simp only [greedyGo]
  rw [hpop]

theorem greedyGo_skip {gr : Grid} {goalPos : Pos} {h : Heur} {fuel : ℕ} {st : GreedySt}
    {ent : Entry} {rest : List Entry}
    (hpop : popMin st.heap = some (ent, rest)) (hv : st.visited ent.pos = true) :
    greedyGo gr goalPos h (fuel + 1) st =
      greedyGo gr goalPos h fuel { st with heap := rest } := by
  simp only [greedyGo]
  rw [hpop]
  simp only [hv, if_true]

theorem greedyGo_goal {gr : Grid} {goalPos : Pos} {h : Heur} {fuel : ℕ} {st : GreedySt}
    {ent : Entry} {rest : List Entry}
    (hpop : popMin st.heap = some (ent, rest)) (hv : st.visited ent.pos = false)
    (hg : ent.pos = goalPos) :
    greedyGo gr goalPos h (fuel + 1) st =
      (let st1 : GreedySt :=
        { st with
          heap := rest
          visited := upd st.visited ent.pos true
          s := { st.s with
                 inOpen := upd st.s.inOpen ent.pos false,
                 inClosed := upd st.s.inClosed ent.pos true }
          nodes := st.nodes + 1 }
       let r := reconstructPath gr st1.s goalPos
       (⟨r.1, st1.nodes, r.2.g goalPos, true⟩, r.2)) := by
  subst hg
  simp only [greedyGo]
  rw [hpop]
  simp only [hv, Bool.false_eq_true, if_false, if_true]

theorem greedyGo_expand {gr : Grid} {goalPos : Pos} {h : Heur} {fuel : ℕ} {st : GreedySt}
    {ent : Entry} {rest : List Entry}
    (hpop : popMin st.heap = some (ent, rest)) (hv : st.visited ent.pos = false)
    (hg : ent.pos ≠ goalPos) :
    greedyGo gr goalPos h (fuel + 1) st =
      greedyGo gr goalPos h fuel
        ((gr.neighbors ent.pos).foldl (greedyRelax goalPos h ent.pos)
          { st with
            heap := rest
            visited := upd st.visited ent.pos true
            s := { st.s with
                   inOpen := upd st.s.inOpen ent.pos false,
                   inClosed := upd st.s.inClosed ent.pos true }
            nodes := st.nodes + 1 }) := by
  simp only [greedyGo]
  rw [hpop]
  simp only [hv, Bool.false_eq_true, if_false, if_neg hg]

/-- Folding `greedyRelax` over a sublist of `cur`'s neighbour list. -/
theorem greedyRelax_fold {gr : Grid} {startPos goalPos cur : Pos} {h : Heur} :
    ∀ (L : List Pos) (st : GreedySt), GMid gr startPos goalPos cur st →
    (∀ nb ∈ L, nb ∈ gr.neighbors cur) →
    GMid gr startPos goalPos cur (L.foldl (greedyRelax goalPos h cur) st) ∧
    (L.foldl (greedyRelax goalPos h cur) st).visited = st.visited ∧
    (∀ p, st.s.inOpen p = true →
      (L.foldl (greedyRelax goalPos h cur) st).s.inOpen p = true) ∧
    (∀ nb ∈ L, (L.foldl (greedyRelax goalPos h cur) st).visited nb = true ∨
      (L.foldl (greedyRelax goalPos h cur) st).s.inOpen nb = true) ∧
    greedyMeasure gr (L.foldl (greedyRelax goalPos h cur) st) ≤ greedyMeasure gr st := by
  intro L
  induction L with
  | nil =>
    intro st hinv _
    exact ⟨hinv, rfl, fun p hp => hp, by simp, le_refl _⟩
  | cons x t ih =>
    intro st hinv hsub
    obtain ⟨h1, h2, h3, h4, _, h6⟩ := greedyRelax_step hinv (hsub x (List.mem_cons_self x t))
    obtain ⟨g1, g2, g3, g4, g6⟩ := ih (greedyRelax goalPos h cur st x) h1
      (fun nb hnb => hsub nb (List.mem_cons_of_mem x hnb))
    rw [List.foldl_cons]
    refine ⟨g1, by rw [g2, h2], fun p hp => g3 p (h3 p hp), ?_, le_trans g6 h6⟩
    intro nb hnb
    rcases List.mem_cons.1 hnb with rfl | hmem
    · rcases h4 with hv | ho
      · left
        rw [g2]
        exact hv
      · right
        exact g3 _ ho
    · exact g4 nb hmem

/-- A mid-expansion state in which every neighbour of the expanded cell
is visited or open again satisfies the top-of-loop invariant. -/
theorem GMid_to_GInv {gr : Grid} {startPos goalPos cur : Pos} {st : GreedySt}
    (h : GMid gr startPos goalPos cur st)
    (hcur : ∀ nb ∈ gr.neighbors cur, st.visited nb = true ∨ st.s.inOpen nb = true) :
    GInv gr startPos goalPos st :=
  { startOpen := h.startOpen
    startG := h.startG
    startParent := h.startParent
    heapG := h.heapG
    heapIn := h.heapIn
    gReach := h.gReach
    gBound := h.gBound
    gBoundVis := h.gBoundVis
    pChain := h.pChain
    parentNone := h.parentNone
    visitedIn := h.visitedIn
    visitedG := h.visitedG
    notOpenG := h.notOpenG
    openEntry := h.openEntry
    closure := by
      intro p hp nb hnb
      by_cases hpe : p = cur
      · subst hpe
        exact hcur nb hnb
      · exact h.closure' p hp hpe nb hnb
    goalNotVis := h.goalNotVis
    nodesEq := h.nodesEq }

/-- A visited set containing the origin and closed under neighbours
contains every reachable cell. -/
theorem visited_closed_reach {gr : Grid} {vis : Pos → Bool} {startPos : Pos}
    (hstart : vis startPos = true)
    (hcl : ∀ p, vis p = true → ∀ nb ∈ gr.neighbors p, vis nb = true) :
    ∀ (n : ℕ) (p : Pos), reachN gr n startPos p → vis p = true := by
  intro n
  induction n with
  | zero =>
    intro p hp
    rw [reachN_zero] at hp
    subst hp
    exact hstart
  | succ k ih =>
    intro p hp
    obtain ⟨c, hc1, hc2⟩ := reachN_succ_rev hp
    exact hcl c (ih c hc1) p hc2

/-- Popping an already-visited entry preserves the invariant and
shortens the heap. -/
theorem greedy_skip {gr : Grid} {startPos goalPos : Pos} {st : GreedySt}
    {ent : Entry} {rest : List Entry}
    (hinv : GInv gr startPos goalPos st) (hpop : popMin st.heap = some (ent, rest))
    (hv : st.visited ent.pos = true) :
    GInv gr startPos goalPos { st with heap := rest } ∧
    greedyMeasure gr { st with heap := rest } + 1 = greedyMeasure gr st := by
  refine ⟨?_, ?_⟩
  · refine
      { startOpen := hinv.startOpen
        startG := hinv.startG
        startParent := hinv.startParent
        heapG := ?_
        heapIn := ?_
        gReach := hinv.gReach
        gBound := hinv.gBound
        gBoundVis := hinv.gBoundVis
        pChain := hinv.pChain
        parentNone := hinv.parentNone
        visitedIn := hinv.visitedIn
        visitedG := hinv.visitedG
        notOpenG := hinv.notOpenG
        openEntry := ?_
        closure := hinv.closure
        goalNotVis := hinv.goalNotVis
        nodesEq := hinv.nodesEq }
    · dsimp only
      intro e he
      exact hinv.heapG e (popMin_rest_subset hpop e he)
    · dsimp only
      intro e he
      exact hinv.heapIn e (popMin_rest_subset hpop e he)
    · dsimp only
      intro p hop hpv
      obtain ⟨e, he, hpos⟩ := hinv.openEntry p hop hpv
      refine ⟨e, popMin_mem_rest hpop he ?_, hpos⟩
      rintro rfl
      rw [hpos] at hv
      rw [hv] at hpv
      exact absurd hpv (by simp)
  · unfold greedyMeasure
    dsimp only
    have hlen := popMin_length hpop
    omega

/-- When the heap runs out, the visited set is exactly the reachable
region and the goal is unreachable. -/
theorem greedy_exhaust {gr : Grid} {startPos goalPos : Pos} {st : GreedySt}
    (hinv : GInv gr startPos goalPos st) (hheap : st.heap = []) :
    ¬ Reachable gr startPos goalPos ∧
    (visitedSet gr st.visited).card = (regionSet gr startPos).card := by
  have hov : ∀ p, st.s.inOpen p = true → st.visited p = true := by
    intro p hp
    by_cases hv : st.visited p = true
    · exact hv
    · have hv' : st.visited p = false := by
        cases h : st.visited p
        · rfl
        · exact absurd h hv
      obtain ⟨e, he, _⟩ := hinv.openEntry p hp hv'
      rw [hheap] at he
      exact absurd he (List.not_mem_nil e)
  have hsv : st.visited startPos = true := by
    rcases hinv.startOpen with h1 | h1
    · exact hov startPos h1
    · exact h1
  have hcl : ∀ p, st.visited p = true → ∀ nb ∈ gr.neighbors p, st.visited nb = true := by
    intro p hp nb hnb
    rcases hinv.closure p hp nb hnb with h1 | h1
    · exact h1
    · exact hov nb h1
  have hstartIn : gr.inB startPos := hinv.visitedIn startPos hsv
  have hset : visitedSet gr st.visited = regionSet gr startPos := by
    ext p
    unfold visitedSet regionSet
    simp only [Finset.mem_filter]
    constructor
    · rintro ⟨hin, hp⟩
      obtain ⟨v, hv⟩ := hinv.visitedG p hp
      exact ⟨hin, (reachable_iff_reachableB hstartIn).1 ⟨v, hinv.gReach p v hv⟩⟩
    · rintro ⟨hin, hp⟩
      obtain ⟨n, _, hn⟩ := hp
      exact ⟨hin, visited_closed_reach hsv hcl n p hn⟩
  refine ⟨?_, by rw [hset]⟩
  rintro ⟨n, hn⟩
  have hgv := visited_closed_reach hsv hcl n goalPos hn
  rw [hinv.goalNotVis] at hgv
  exact absurd hgv (by simp)

/-- Popping an unvisited non-goal entry establishes the mid-expansion
invariant and pays for the pop and the whole neighbour fold. -/
theorem greedy_expand {gr : Grid} {startPos goalPos : Pos} {st : GreedySt}
    {ent : Entry} {rest : List Entry}
    (hinv : GInv gr startPos goalPos st) (hpop : popMin st.heap = some (ent, rest))
    (hv : st.visited ent.pos = false) (hg : ent.pos ≠ goalPos) :
    GMid gr startPos goalPos ent.pos
      { st with
        heap := rest
        visited := upd st.visited ent.pos true
        s := { st.s with
               inOpen := upd st.s.inOpen ent.pos false,
               inClosed := upd st.s.inClosed ent.pos true }
        nodes := st.nodes + 1 } ∧
    greedyMeasure gr
      { st with
        heap := rest
        visited := upd st.visited ent.pos true
        s := { st.s with
               inOpen := upd st.s.inOpen ent.pos false,
               inClosed := upd st.s.inClosed ent.pos true }
        nodes := st.nodes + 1 } + 2 ≤ greedyMeasure gr st := by
  have hmem := popMin_mem hpop
  obtain ⟨gc, hgc⟩ := hinv.heapG ent hmem
  have hcurIn : gr.inB ent.pos := hinv.heapIn ent hmem
  have hopen : st.s.inOpen ent.pos = true := by
    cases ho : st.s.inOpen ent.pos
    · rw [hinv.notOpenG ent.pos ho hv] at hgc
      exact absurd hgc (by simp)
    · rfl
  have hcard := visitedSet_upd_card hcurIn hv
  constructor
  · refine
      { startOpen := ?_
        startG := hinv.startG
        startParent := hinv.startParent
        heapG := ?_
        heapIn := ?_
        gReach := hinv.gReach
        gBound := ?_
        gBoundVis := ?_
        pChain := ?_
        parentNone := hinv.parentNone
        visitedIn := ?_
        visitedG := ?_
        notOpenG := ?_
        openEntry := ?_
        closure' := ?_
        curVis := ?_
        goalNotVis := ?_
        nodesEq := ?_ }
    · dsimp only
      rcases hinv.startOpen with h1 | h1
      · by_cases hsp : startPos = ent.pos
        · right
          rw [hsp]
          exact upd_same _ _ _
        · left
          rw [upd_ne _ _ hsp]
          exact h1
      · right
        by_cases hsp : startPos = ent.pos
        · rw [hsp]
          exact upd_same _ _ _
        · rw [upd_ne _ _ hsp]
          exact h1
    · dsimp only
      intro e he
      exact hinv.heapG e (popMin_rest_subset hpop e he)
    · dsimp only
      intro e he
      exact hinv.heapIn e (popMin_rest_subset hpop e he)
    · dsimp only
      intro p v hp
      have h1 := hinv.gBound p v hp
      omega
    · dsimp only
      intro p v hp hpv
      by_cases hpe : p = ent.pos
      · subst hpe
        have h1 := hinv.gBound ent.pos v hp
        omega
      · rw [upd_ne _ _ hpe] at hpv
        have h1 := hinv.gBoundVis p v hp hpv
        omega
    · dsimp only
      intro p q hpq
      obtain ⟨h1, h2, w, h3, h4⟩ := hinv.pChain p q hpq
      refine ⟨h1, ?_, w, h3, h4⟩
      by_cases hqe : q = ent.pos
      · rw [hqe]
        exact upd_same _ _ _
      · rw [upd_ne _ _ hqe]
        exact h2
    · dsimp only
      intro p hp
      by_cases hpe : p = ent.pos
      · subst hpe
        exact hcurIn
      · rw [upd_ne _ _ hpe] at hp
        exact hinv.visitedIn p hp
    · dsimp only
      intro p hp
      by_cases hpe : p = ent.pos
      · subst hpe
        exact ⟨gc, hgc⟩
      · rw [upd_ne _ _ hpe] at hp
        exact hinv.visitedG p hp
    · dsimp only
      intro p hop hpv
      have hpe : p ≠ ent.pos := by
        rintro rfl
        rw [upd_same] at hpv
        exact absurd hpv (by simp)
      rw [upd_ne _ _ hpe] at hop hpv
      exact hinv.notOpenG p hop hpv
    · dsimp only
      intro p hop hpv
      have hpe : p ≠ ent.pos := by
        rintro rfl
        rw [upd_same] at hpv
        exact absurd hpv (by simp)
      rw [upd_ne _ _ hpe] at hop hpv
      obtain ⟨e, he, hpos⟩ := hinv.openEntry p hop hpv
      refine ⟨e, popMin_mem_rest hpop he ?_, hpos⟩
      rintro rfl
      exact hpe hpos.symm
    · dsimp only
      intro p hp hpne nb hnb
      rw [upd_ne _ _ hpne] at hp
      rcases hinv.closure p hp nb hnb with h1 | h1
      · left
        by_cases hne2 : nb = ent.pos
        · rw [hne2]
          exact upd_same _ _ _
        · rw [upd_ne _ _ hne2]
          exact h1
      · by_cases hne2 : nb = ent.pos
        · left
          rw [hne2]
          exact upd_same _ _ _
        · right
          rw [upd_ne _ _ hne2]
          exact h1
    · dsimp only
      exact upd_same _ _ _
    · dsimp only
      rw [upd_ne _ _ (Ne.symm hg)]
      exact hinv.goalNotVis
    · dsimp only
      have h1 := hinv.nodesEq
      omega
  · unfold greedyMeasure
    dsimp only
    have hlen := popMin_length hpop
    have hkey : (∑ p ∈ gr.posFinset,
        (gPhi gr (st.s.g p) + (if upd st.s.inOpen ent.pos false p then 0 else 1) +
          (if upd st.visited ent.pos true p then 0 else 2))) + 1 ≤
        ∑ p ∈ gr.posFinset,
        (gPhi gr (st.s.g p) + (if st.s.inOpen p then 0 else 1) +
          (if st.visited p then 0 else 2)) := by
      apply sum_upd_le (Grid.mem_posFinset.2 hcurIn)
      · intro p hp hpe
        rw [upd_ne _ _ hpe, upd_ne _ _ hpe]
      · rw [upd_same, upd_same, hopen, hv]
        simp
    omega

/-- The greedy loop meets its contract from any invariant state, given
fuel above the termination measure. -/
theorem greedyGo_spec {gr : Grid} {startPos goalPos : Pos} {h : Heur} :
    ∀ (fuel : ℕ) (st : GreedySt), GInv gr startPos goalPos st →
    greedyMeasure gr st < fuel →
    greedyPost gr startPos goalPos (greedyGo gr goalPos h fuel st) := by
  intro fuel
  induction fuel with
  | zero =>
    intro st _ hf
    omega
  | succ f ih =>
    intro st hinv hf
    cases hpop : popMin st.heap with
    | none =>
      rw [greedyGo_none hpop]
      obtain ⟨hnr, hcard⟩ := greedy_exhaust hinv (popMin_eq_none.1 hpop)
      unfold greedyPost
      right
      refine ⟨rfl, hnr, rfl, ?_⟩
      show st.nodes = (regionSet gr startPos).card
      rw [hinv.nodesEq]
      exact hcard
    | some pr =>
      obtain ⟨ent, rest⟩ := pr
      by_cases hv : st.visited ent.pos = true
      · rw [greedyGo_skip hpop hv]
        obtain ⟨hinv2, hm⟩ := greedy_skip hinv hpop hv
        exact ih _ hinv2 (by omega)
      · have hv' : st.visited ent.pos = false := by
          cases hvv : st.visited ent.pos
          · rfl
          · exact absurd hvv hv
        by_cases hgoal : ent.pos = goalPos
        · rw [greedyGo_goal hpop hv' hgoal]
          obtain ⟨v, hgv⟩ := hinv.heapG ent (popMin_mem hpop)
          rw [hgoal] at hgv
          have hvle : v ≤ gr.size + 1 := by
            have h1 := hinv.gBound goalPos v hgv
            have h2 := visitedSet_card_le gr st.visited
            omega
          obtain ⟨l, heq, hlen, hhead, hlast, hch⟩ :=
            reconAux_spec gr
              { st.s with
                inOpen := upd st.s.inOpen ent.pos false,
                inClosed := upd st.s.inClosed ent.pos true } startPos
              (fun p q hpq => ⟨(hinv.pChain p q hpq).1, (hinv.pChain p q hpq).2.2⟩)
              (fun p w hp hw => hinv.parentNone p w hp hw)
              v goalPos [] (gr.size + 1) hgv hvle
          rw [List.append_nil] at heq
          unfold greedyPost reconstructPath
          dsimp only
          left
          rw [heq, markPath_g]
          exact ⟨rfl, ⟨v, hinv.gReach goalPos v hgv⟩, v, hgv, hgv, hlen, hhead, hlast, hch⟩
        · rw [greedyGo_expand hpop hv' hgoal]
          obtain ⟨hmid, hm⟩ := greedy_expand hinv hpop hv' hgoal
          obtain ⟨hmid2, _, _, hnbs, hm2⟩ :=
            greedyRelax_fold (gr.neighbors ent.pos) _ hmid (fun nb hnb => hnb)
          exact ih _ (GMid_to_GInv hmid2 hnbs) (by omega)

theorem gPhi_le (gr : Grid) (o : Option ℕ) : gPhi gr o ≤ gr.size + 2 := by
  cases o with
  | none => exact le_refl _
  | some v =>
    show min v (gr.size + 1) ≤ gr.size + 2
    omega

/-- Any state with at most one heap entry is below the fuel bound. -/
theorem greedyMeasure_lt_fuel (gr : Grid) (st : GreedySt) (hlen : st.heap.length ≤ 1) :
    greedyMeasure gr st < searchFuel gr := by
  unfold greedyMeasure searchFuel
  have hb : ∀ p ∈ gr.posFinset,
      gPhi gr (st.s.g p) + (if st.s.inOpen p then 0 else 1) +
        (if st.visited p then 0 else 2) ≤ gr.size + 5 := by
    intro p _
    have h1 := gPhi_le gr (st.s.g p)
    have h2 : (if st.s.inOpen p then 0 else 1) ≤ 1 := by
      split <;> omega
    have h3 : (if st.visited p then 0 else 2) ≤ 2 := by
      split <;> omega
    omega
  have hs := Finset.sum_le_sum hb
  rw [Finset.sum_const, smul_eq_mul, gr.card_posFinset] at hs
  have hexp : (gr.size + 2) * (gr.size + 5) = gr.size * (gr.size + 5) + 2 * (gr.size + 5) := by
    ring
  omega

/-- The initial state of `greedy_bfs` from a reset scratch state
satisfies the loop invariant. -/
theorem greedyInit_inv {gr : Grid} {startPos goalPos : Pos} {h : Heur} {s : SState}
    (hstart : gr.inB startPos) (hg : ∀ p, s.g p = none)
    (hpar : ∀ p, s.parent p = none) (hop : ∀ p, s.inOpen p = false) :
    GInv gr startPos goalPos (greedyInit s startPos goalPos h) := by
  unfold greedyInit
  refine
    { startOpen := ?_
      startG := ?_
      startParent := ?_
      heapG := ?_
      heapIn := ?_
      gReach := ?_
      gBound := ?_
      gBoundVis := ?_
      pChain := ?_
      parentNone := ?_
      visitedIn := ?_
      visitedG := ?_
      notOpenG := ?_
      openEntry := ?_
      closure := ?_
      goalNotVis := ?_
      nodesEq := ?_ }
  · dsimp only
    left
    exact upd_same _ _ _
  · dsimp only
    exact upd_same _ _ _
  · dsimp only
    exact hpar startPos
  · dsimp only
    intro e he
    simp only [List.mem_singleton] at he
    subst he
    exact ⟨0, upd_same _ _ _⟩
  · dsimp only
    intro e he
    simp only [List.mem_singleton] at he
    subst he
    exact hstart
  · dsimp only
    intro p v hp
    by_cases hpe : p = startPos
    · subst hpe
      rw [upd_same] at hp
      injection hp with hp
      subst hp
      exact reachN_refl gr p
    · rw [upd_ne _ _ hpe, hg p] at hp
      exact absurd hp (by simp)
  · dsimp only
    intro p v hp
    by_cases hpe : p = startPos
    · subst hpe
      rw [upd_same] at hp
      injection hp with hp
      omega
    · rw [upd_ne _ _ hpe, hg p] at hp
      exact absurd hp (by simp)
  · dsimp only
    intro p v _ hpv
    exact absurd hpv (by simp)
  · dsimp only
    intro p q hpq
    rw [hpar p] at hpq
    exact absurd hpq (by simp)
  · dsimp only
    intro p v hp hgp
    by_cases hpe : p = startPos
    · subst hpe
      rw [upd_same] at hgp
      injection hgp with hgp
      exact ⟨rfl, hgp.symm⟩
    · rw [upd_ne _ _ hpe, hg p] at hgp
      exact absurd hgp (by simp)
  · dsimp only
    intro p hpv
    exact absurd hpv (by simp)
  · dsimp only
    intro p hpv
    exact absurd hpv (by simp)
  · dsimp only
    intro p hop2 _
    by_cases hpe : p = startPos
    · subst hpe
      rw [upd_same] at hop2
      exact absurd hop2 (by simp)
    · rw [upd_ne _ _ hpe]
      exact hg p
  · dsimp only
    intro p hop2 _
    by_cases hpe : p = startPos
    · subst hpe
      exact ⟨⟨(0, hsq h p goalPos), 0, p⟩, List.mem_singleton.2 rfl, rfl⟩
    · rw [upd_ne _ _ hpe, hop p] at hop2
      exact absurd hop2 (by simp)
  · dsimp only
    intro p hpv
    exact absurd hpv (by simp)
  · dsimp only
  · dsimp only
    unfold visitedSet
    simp

/-- `greedy_bfs` from a reset scratch state meets the search contract. -/
theorem greedyBfs_spec {gr : Grid} {startPos goalPos : Pos} {h : Heur} {s : SState}
    (hstart : gr.inB startPos) (hg : ∀ p, s.g p = none)
    (hpar : ∀ p, s.parent p = none) (hop : ∀ p, s.inOpen p = false) :
    greedyPost gr startPos goalPos (greedyBfs gr s startPos goalPos h) := by
  unfold greedyBfs
  exact greedyGo_spec (searchFuel gr) _ (greedyInit_inv hstart hg hpar hop)
    (greedyMeasure_lt_fuel gr _ (le_refl 1))

/-! ### A* loop: helper lemmas -/

theorem mindist_le_size {g : Grid} {a b : Pos} {m : ℕ}
    (h : mindist g a b = some m) : m ≤ g.size := by
  unfold mindist at h
  split at h
  next hex =>
    injection h with h
    subst h
    exact (Nat.find_spec hex).1
  next => exact absurd h (by simp)

theorem mindist_pred {g : Grid} {a b : Pos} {k : ℕ} (ha : g.inB a)
    (h : mindist g a b = some (k + 1)) :
    ∃ w, mindist g a w = some k ∧ b ∈ g.neighbors w := by
  obtain ⟨hr, hmin⟩ := mindist_spec ha h
  obtain ⟨c, hc1, hc2⟩ := reachN_succ_rev hr
  obtain ⟨j, hj1, hj2⟩ := mindist_le ha hc1
  have hrc := (mindist_spec ha hj2).1
  have hup := hmin (j + 1) (reachN_snoc hrc hc2)
  have hjk : j = k := by omega
  subst hjk
  exact ⟨c, hj2, hc2⟩

@[simp] theorem ogLeB_refl (x : Option ℕ) : ogLeB x x = true := by
  cases x with
  | none => rfl
  | some v => simp [ogLeB]

theorem isSome_upd_fun (exp : Pos → Option (Option ℕ)) (c : Pos) (r : Option ℕ) :
    (fun p => ((upd exp c (some r)) p).isSome) = upd (fun p => (exp p).isSome) c true := by
  funext p
  unfold upd
  split <;> rfl

theorem aPhi_le (gr : Grid) (o : Option ℕ) : aPhi gr o ≤ gr.size + 3 := by
  cases o with
  | none => exact le_refl _
  | some v =>
    show min v (gr.size + 2) ≤ gr.size + 3
    omega

theorem astarGo_none {gr : Grid} {goalPos : Pos} {h : Heur} {fuel : ℕ} {st : AStarSt}
    (hpop : popMin st.heap = none) :
    astarGo gr goalPos h (fuel + 1) st = (SearchResult.init st.nodes, st.s) := by
  simp only [astarGo]
  rw [hpop]

theorem astarGo_skip {gr : Grid} {goalPos : Pos} {h : Heur} {fuel : ℕ} {st : AStarSt}
    {ent : Entry} {rest : List Entry}
    (hpop : popMin st.heap = some (ent, rest))
    (hskip : (match st.expanded ent.pos with
              | none => false
              | some r => ogLeB r (st.s.g ent.pos)) = true) :
    astarGo gr goalPos h (fuel + 1) st =
      astarGo gr goalPos h fuel { st with heap := rest } := by
  simp only [astarGo]
  rw [hpop]
  simp only [hskip, if_true]

theorem astarGo_goal {gr : Grid} {goalPos : Pos} {h : Heur} {fuel : ℕ} {st : AStarSt}
    {ent : Entry} {rest : List Entry}
    (hpop : popMin st.heap = some (ent, rest))
    (hskip : (match st.expanded ent.pos with
              | none => false
              | some r => ogLeB r (st.s.g ent.pos)) = false)
    (hg : ent.pos = goalPos) :
    astarGo gr goalPos h (fuel + 1) st =
      (let st1 : AStarSt :=
        { st with
          heap := rest
          expanded := upd st.expanded ent.pos (some (st.s.g ent.pos))
          s := { st.s with
                 inOpen := upd st.s.inOpen ent.pos false,
                 inClosed := upd st.s.inClosed ent.pos true }
          nodes := st.nodes + 1 }
       let r := reconstructPath gr st1.s goalPos
       (⟨r.1, st1.nodes, r.2.g goalPos, true⟩, r.2)) := by
  subst hg
  simp only [astarGo]
  rw [hpop]
  simp only [hskip, Bool.false_eq_true, if_false, if_true]

theorem astarGo_expand {gr : Grid} {goalPos : Pos} {h : Heur} {fuel : ℕ} {st : AStarSt}
    {ent : Entry} {rest : List Entry}
    (hpop : popMin st.heap = some (ent, rest))
    (hskip : (match st.expanded ent.pos with
              | none => false
              | some r => ogLeB r (st.s.g ent.pos)) = false)
    (hg : ent.pos ≠ goalPos) :
    astarGo gr goalPos h (fuel + 1) st =
      astarGo gr goalPos h fuel
        ((gr.neighbors ent.pos).foldl (astarRelax goalPos h ent.pos)
          { st with
            heap := rest
            expanded := upd st.expanded ent.pos (some (st.s.g ent.pos))
            s := { st.s with
                   inOpen := upd st.s.inOpen ent.pos false,
                   inClosed := upd st.s.inClosed ent.pos true }
            nodes := st.nodes + 1 }) := by
  simp only [astarGo]
  rw [hpop]
  simp only [hskip, Bool.false_eq_true, if_false, if_neg hg]

/-- The frontier property, derived from the invariant: every position at
finite shortest distance is settled, or covered by a heap entry holding,
with exact optimal `g`, a position on a shortest route to it. -/
theorem astar_cover {gr : Grid} {startPos goalPos : Pos} {h : Heur} {st : AStarSt}
    (inv : AInv gr startPos goalPos h st) (hstart : gr.inB startPos) :
    ∀ (m : ℕ) (z : Pos), mindist gr startPos z = some m →
    st.expanded z ≠ none ∨
    ∃ y my ent, mindist gr startPos y = some my ∧ st.s.g y = some my ∧ my ≤ m ∧
      reachN gr (m - my) y z ∧ ent ∈ st.heap ∧ ent.pos = y ∧
      ent.key = (my, hsq h y goalPos) := by
  intro m
  induction m with
  | zero =>
    intro z hz
    by_cases hexp : st.expanded z = none
    · right
      have hz0 := (mindist_spec hstart hz).1
      rw [reachN_zero] at hz0
      subst hz0
      obtain ⟨ent, hent, hpos, hkey⟩ := inv.openExact startPos 0 inv.startG hexp
      exact ⟨startPos, 0, ent, mindist_self hstart, inv.startG, le_refl 0,
        reachN_refl gr startPos, hent, hpos, hkey⟩
    · left
      exact hexp
  | succ k ih =>
    intro z hz
    by_cases hexp : st.expanded z = none
    · right
      obtain ⟨w, hw, hwz⟩ := mindist_pred hstart hz
      rcases ih w hw with hsett | ⟨y, my, ent, h1, h2, h3, h4, h5, h6, h7⟩
      · cases hwe : st.expanded w with
        | none => exact absurd hwe hsett
        | some r =>
          obtain ⟨u, w', hu, hw', hle⟩ := inv.settledNb w r hwe z hwz
          rw [hw] at hw'
          injection hw' with hw'
          subst hw'
          have hzr := inv.gReach z u hu
          obtain ⟨m2, hm2le, hm2⟩ := mindist_le hstart hzr
          rw [hz] at hm2
          injection hm2 with hm2
          have hu2 : u = k + 1 := by omega
          subst hu2
          obtain ⟨ent, hent, hpos, hkey⟩ := inv.openExact z (k + 1) hu hexp
          refine ⟨z, k + 1, ent, hz, hu, le_refl _, ?_, hent, hpos, hkey⟩
          rw [Nat.sub_self]
          exact reachN_refl gr z
      · refine ⟨y, my, ent, h1, h2, by omega, ?_, h5, h6, h7⟩
        rw [show k + 1 - my = (k - my) + 1 from by omega]
        exact reachN_snoc h4 hwz
    · left
      exact hexp

/-- Expansion optimality: an unsettled popped position already carries
its exact shortest distance in `g` (the A* optimality argument: minimal
key plus heuristic consistency). -/
theorem astar_pop_opt {gr : Grid} {startPos goalPos : Pos} {h : Heur} {st : AStarSt}
    {ent : Entry} {rest : List Entry}
    (inv : AInv gr startPos goalPos h st) (hstart : gr.inB startPos)
    (hpop : popMin st.heap = some (ent, rest)) (hexp : st.expanded ent.pos = none) :
    ∃ v, st.s.g ent.pos = some v ∧ mindist gr startPos ent.pos = some v := by
  obtain ⟨v, hv, hvk, hk2⟩ := inv.heapKey ent (popMin_mem hpop)
  obtain ⟨m, hm1, hm2⟩ := mindist_le hstart (inv.gReach ent.pos v hv)
  rcases astar_cover inv hstart m ent.pos hm2 with hsett |
    ⟨y, my, enty, h1, h2, h3, h4, h5, h6, h7⟩
  · exact absurd hexp hsett
  · have hle := popMin_key_le hpop enty h5
    have hlip := hsq_lipschitz h goalPos h4
    have hyval : enty.key.val = (my : ℝ) + Real.sqrt ((hsq h y goalPos : ℕ) : ℝ) := by
      rw [h7]
      rfl
    have hentval : ent.key.val =
        ((ent.key.1 : ℕ) : ℝ) + Real.sqrt ((hsq h ent.pos goalPos : ℕ) : ℝ) := by
      unfold Key.val
      rw [hk2]
    have hcast : ((m - my : ℕ) : ℝ) = (m : ℝ) - (my : ℝ) := by
      rw [Nat.cast_sub h3]
    rw [hcast] at hlip
    have hvk' : (v : ℝ) ≤ ((ent.key.1 : ℕ) : ℝ) := by exact_mod_cast hvk
    have h8 : ((ent.key.1 : ℕ) : ℝ) + Real.sqrt ((hsq h ent.pos goalPos : ℕ) : ℝ) ≤
        (my : ℝ) + Real.sqrt ((hsq h y goalPos : ℕ) : ℝ) := by
      rw [← hentval, ← hyval]
      exact hle
    have hfin : (v : ℝ) ≤ (m : ℝ) := by linarith
    have hvm : v = m := by
      have hvm1 : v ≤ m := by exact_mod_cast hfin
      omega
    subst hvm
    exact ⟨v, hv, hm2⟩

/-- Popping an entry for a settled position preserves the invariant and
shortens the heap. -/
theorem astar_skip {gr : Grid} {startPos goalPos : Pos} {h : Heur} {st : AStarSt}
    {ent : Entry} {rest : List Entry}
    (inv : AInv gr startPos goalPos h st) (hpop : popMin st.heap = some (ent, rest))
    (hset : st.expanded ent.pos ≠ none) :
    AInv gr startPos goalPos h { st with heap := rest } ∧
    astarMeasure gr { st with heap := rest } + 1 = astarMeasure gr st := by
  refine ⟨?_, ?_⟩
  · refine
      { startG := inv.startG
        startParent := inv.startParent
        heapIn := ?_
        heapKey := ?_
        gReach := inv.gReach
        gIn := inv.gIn
        gBound := inv.gBound
        pChain := inv.pChain
        parentNone := inv.parentNone
        expG := inv.expG
        expOpt := inv.expOpt
        openExact := ?_
        settledNb := inv.settledNb
        goalNotExp := inv.goalNotExp
        nodesEq := inv.nodesEq }
    · dsimp only
      intro e he
      exact inv.heapIn e (popMin_rest_subset hpop e he)
    · dsimp only
      intro e he
      exact inv.heapKey e (popMin_rest_subset hpop e he)
    · dsimp only
      intro p v hp hexp
      obtain ⟨e, he, hpos, hkey⟩ := inv.openExact p v hp hexp
      refine ⟨e, popMin_mem_rest hpop he ?_, hpos, hkey⟩
      rintro rfl
      rw [hpos] at hset
      exact hset hexp
  · unfold astarMeasure
    dsimp only
    have hlen := popMin_length hpop
    omega

/-- One `astarRelax` step preserves the mid-expansion invariant, leaves
`expanded` unchanged, bounds the neighbour's `g` by `gc + 1`, never
increases any `g`, and does not increase the measure. -/
theorem astarRelax_step {gr : Grid} {startPos goalPos cur : Pos} {h : Heur} {gc : ℕ}
    {st : AStarSt} (inv : AMid gr startPos goalPos cur h gc st)
    (hstart : gr.inB startPos) {nb : Pos} (hnb : nb ∈ gr.neighbors cur) :
    AMid gr startPos goalPos cur h gc (astarRelax goalPos h cur st nb) ∧
    (astarRelax goalPos h cur st nb).expanded = st.expanded ∧
    (∃ u, (astarRelax goalPos h cur st nb).s.g nb = some u ∧ u ≤ gc + 1) ∧
    (∀ p u, st.s.g p = some u →
      ∃ w, (astarRelax goalPos h cur st nb).s.g p = some w ∧ w ≤ u) ∧
    astarMeasure gr (astarRelax goalPos h cur st nb) ≤ astarMeasure gr st := by
  have hnbne : nb ≠ cur := Grid.neighbors_ne hnb
  have hnbin : gr.inB nb := gr.neighbors_inB hnb
  have hgcsize : gc ≤ gr.size := mindist_le_size inv.curMin
  have hreachnb : reachN gr (gc + 1) startPos nb :=
    reachN_snoc (inv.gReach cur gc inv.curG) hnb
  obtain ⟨mnb, hmnb1, hmnb2⟩ := mindist_le hstart hreachnb
  by_cases hcond : ogLtB (some (gc + 1)) (st.s.g nb) = true
  · -- push branch
    have holdg : st.s.g nb = none ∨ ∃ u, st.s.g nb = some u ∧ gc + 1 < u := by
      cases hu : st.s.g nb with
      | none => exact Or.inl rfl
      | some u =>
        rw [hu, ogLtB_some_some, decide_eq_true_eq] at hcond
        exact Or.inr ⟨u, rfl, hcond⟩
    have hnbstart : nb ≠ startPos := by
      rintro rfl
      rcases holdg with hg0 | ⟨u, hgu, hlt⟩
      · rw [inv.startG] at hg0
        exact absurd hg0 (by simp)
      · rw [inv.startG] at hgu
        injection hgu with hgu
        omega
    have hnbnotexp : st.expanded nb = none := by
      cases hne : st.expanded nb with
      | none => rfl
      | some r =>
        obtain ⟨vnb, hgnb, hminnb⟩ := inv.expOpt nb r hne
        rw [hminnb] at hmnb2
        injection hmnb2 with hmnb2
        rcases holdg with hg0 | ⟨u, hgu, hlt⟩
        · rw [hgnb] at hg0
          exact absurd hg0 (by simp)
        · rw [hgnb] at hgu
          injection hgu with hgu
          omega
    have hred : astarRelax goalPos h cur st nb =
        { st with
          s := { st.s with
                 g := upd st.s.g nb (some (gc + 1)),
                 hsq := upd st.s.hsq nb (hsq h nb goalPos),
                 f := upd st.s.f nb (some (gc + 1, hsq h nb goalPos)),
                 parent := upd st.s.parent nb (some cur),
                 inOpen := upd st.s.inOpen nb true,
                 inClosed := upd st.s.inClosed nb false }
          counter := st.counter + 1
          heap := st.heap ++ [⟨(gc + 1, hsq h nb goalPos), st.counter + 1, nb⟩] } := by
      unfold astarRelax
      rw [inv.curG]
      dsimp only
      rw [if_pos hcond]
    rw [hred]
    dsimp only
    refine ⟨?_, rfl, ?_, ?_, ?_⟩
    · refine
        { startG := ?_
          startParent := ?_
          heapIn := ?_
          heapKey := ?_
          gReach := ?_
          gIn := ?_
          gBound := ?_
          pChain := ?_
          parentNone := ?_
          expG := ?_
          expOpt := ?_
          openExact := ?_
          settledNb := ?_
          curG := ?_
          curMin := inv.curMin
          curExp := inv.curExp
          goalNotExp := inv.goalNotExp
          nodesEq := inv.nodesEq }
      · dsimp only
        rw [upd_ne _ _ (Ne.symm hnbstart)]
        exact inv.startG
      · dsimp only
        rw [upd_ne _ _ (Ne.symm hnbstart)]
        exact inv.startParent
      · dsimp only
        intro e he
        rcases List.mem_append.1 he with hold | hnew
        · exact inv.heapIn e hold
        · rw [List.mem_singleton] at hnew
          subst hnew
          exact hnbin
      · dsimp only
        intro e he
        rcases List.mem_append.1 he with hold | hnew
        · obtain ⟨u, hu, huk, hk2⟩ := inv.heapKey e hold
          by_cases hpe : e.pos = nb
          · rw [hpe] at hu hk2
            refine ⟨gc + 1, by rw [hpe]; exact upd_same _ _ _, ?_, by rw [hpe]; exact hk2⟩
            rcases holdg with hg0 | ⟨u2, hgu2, hlt⟩
            · rw [hg0] at hu
              exact absurd hu (by simp)
            · rw [hgu2] at hu
              injection hu with hu
              omega
          · exact ⟨u, by rw [upd_ne _ _ hpe]; exact hu, huk, hk2⟩
        · rw [List.mem_singleton] at hnew
          subst hnew
          exact ⟨gc + 1, upd_same _ _ _, le_refl _, rfl⟩
      · dsimp only
        intro p v hp
        by_cases hpe : p = nb
        · subst hpe
          rw [upd_same] at hp
          injection hp with hp
          subst hp
          exact hreachnb
        · rw [upd_ne _ _ hpe] at hp
          exact inv.gReach p v hp
      · dsimp only
        intro p v hp
        by_cases hpe : p = nb
        · subst hpe
          exact hnbin
        · rw [upd_ne _ _ hpe] at hp
          exact inv.gIn p v hp
      · dsimp only
        intro p v hp
        by_cases hpe : p = nb
        · subst hpe
          rw [upd_same] at hp
          injection hp with hp
          unfold Grid.size at *
          omega
        · rw [upd_ne _ _ hpe] at hp
          exact inv.gBound p v hp
      · dsimp only
        intro p q hpq
        by_cases hpe : p = nb
        · subst hpe
          rw [upd_same] at hpq
          injection hpq with hpq
          subst hpq
          refine ⟨hnb, gc, ?_, upd_same _ _ _, inv.curMin⟩
          rw [upd_ne _ _ (Ne.symm hnbne)]
          exact inv.curG
        · rw [upd_ne _ _ hpe] at hpq
          obtain ⟨hmem, w, hgq, hgp, hqmin⟩ := inv.pChain p q hpq
          have hqne : q ≠ nb := by
            rintro rfl
            rw [hmnb2] at hqmin
            injection hqmin with hqmin
            rcases holdg with hg0 | ⟨u, hgu, hlt⟩
            · rw [hg0] at hgq
              exact absurd hgq (by simp)
            · rw [hgu] at hgq
              injection hgq with hgq
              omega
          refine ⟨hmem, w, ?_, ?_, hqmin⟩
          · rw [upd_ne _ _ hqne]
            exact hgq
          · rw [upd_ne _ _ hpe]
            exact hgp
      · dsimp only
        intro p v hpar hg
        by_cases hpe : p = nb
        · subst hpe
          rw [upd_same] at hpar
          exact absurd hpar (by simp)
        · rw [upd_ne _ _ hpe] at hpar
          rw [upd_ne _ _ hpe] at hg
          exact inv.parentNone p v hpar hg
      · dsimp only
        intro p r hp
        by_cases hpe : p = nb
        · subst hpe
          rw [hnbnotexp] at hp
          exact absurd hp (by simp)
        · rw [upd_ne _ _ hpe]
          exact inv.expG p r hp
      · dsimp only
        intro p r hp
        by_cases hpe : p = nb
        · subst hpe
          rw [hnbnotexp] at hp
          exact absurd hp (by simp)
        · obtain ⟨v, hv, hm⟩ := inv.expOpt p r hp
          exact ⟨v, by rw [upd_ne _ _ hpe]; exact hv, hm⟩
      · dsimp only
        intro p v hp hexp
        by_cases hpe : p = nb
        · subst hpe
          rw [upd_same] at hp
          injection hp with hp
          subst hp
          exact ⟨⟨(gc + 1, hsq h p goalPos), st.counter + 1, p⟩,
            List.mem_append.2 (Or.inr (List.mem_singleton.2 rfl)), rfl, rfl⟩
        · rw [upd_ne _ _ hpe] at hp
          obtain ⟨e, he, hpos, hkey⟩ := inv.openExact p v hp hexp
          exact ⟨e, List.mem_append.2 (Or.inl he), hpos, hkey⟩
      · dsimp only
        intro p r hp hpne nb2 hnb2
        obtain ⟨u, w, hu, hw, hle⟩ := inv.settledNb p r hp hpne nb2 hnb2
        by_cases hpe : nb2 = nb
        · subst hpe
          rcases holdg with hg0 | ⟨u2, hgu2, hlt⟩
          · rw [hg0] at hu
            exact absurd hu (by simp)
          · rw [hgu2] at hu
            injection hu with hu
            exact ⟨gc + 1, w, upd_same _ _ _, hw, by omega⟩
        · exact ⟨u, w, by rw [upd_ne _ _ hpe]; exact hu, hw, hle⟩
      · dsimp only
        rw [upd_ne _ _ (Ne.symm hnbne)]
        exact inv.curG
    · exact ⟨gc + 1, upd_same _ _ _, le_refl _⟩
    · intro p u hp
      by_cases hpe : p = nb
      · subst hpe
        refine ⟨gc + 1, upd_same _ _ _, ?_⟩
        rcases holdg with hg0 | ⟨u2, hgu2, hlt⟩
        · rw [hg0] at hp
          exact absurd hp (by simp)
        · rw [hgu2] at hp
          injection hp with hp
          omega
      · exact ⟨u, by rw [upd_ne _ _ hpe]; exact hp, le_refl _⟩
    · unfold astarMeasure
      dsimp only
      simp only [List.length_append, List.length_singleton]
      have hkey : (∑ p ∈ gr.posFinset,
          (aPhi gr (upd st.s.g nb (some (gc + 1)) p) +
            (if upd st.s.inOpen nb true p then 0 else 1) +
            (if (st.expanded p).isSome then 0 else 2))) + 1 ≤
          ∑ p ∈ gr.posFinset,
          (aPhi gr (st.s.g p) + (if st.s.inOpen p then 0 else 1) +
            (if (st.expanded p).isSome then 0 else 2)) := by
        apply sum_upd_le (Grid.mem_posFinset.2 hnbin)
        · intro p hp hpe
          rw [upd_ne _ _ hpe, upd_ne _ _ hpe]
        · rw [upd_same, upd_same]
          have hnew : aPhi gr (some (gc + 1)) = gc + 1 := by
            show min (gc + 1) (gr.size + 2) = gc + 1
            omega
          rcases holdg with hg0 | ⟨u, hgu, hlt⟩
          · rw [hg0, hnew]
            have hz : aPhi gr none = gr.size + 3 := rfl
            rw [hz, if_pos rfl]
            omega
          · rw [hgu, hnew, if_pos rfl]
            have hz : aPhi gr (some u) = min u (gr.size + 2) := rfl
            rw [hz]
            omega
      omega
  · -- no relaxation: the state is unchanged
    have hred : astarRelax goalPos h cur st nb = st := by
      unfold astarRelax
      rw [inv.curG]
      dsimp only
      rw [if_neg hcond]
    rw [hred]
    refine ⟨inv, rfl, ?_, fun p u hp => ⟨u, hp, le_refl _⟩, le_refl _⟩
    cases hu : st.s.g nb with
    | none =>
      rw [hu] at hcond
      exact absurd rfl hcond
    | some u =>
      rw [hu, ogLtB_some_some, decide_eq_true_eq] at hcond
      exact ⟨u, rfl, by omega⟩

/-- Folding `astarRelax` over a sublist of `cur`'s neighbour list. -/
theorem astarRelax_fold {gr : Grid} {startPos goalPos cur : Pos} {h : Heur} {gc : ℕ}
    (hstart : gr.inB startPos) :
    ∀ (L : List Pos) (st : AStarSt), AMid gr startPos goalPos cur h gc st →
    (∀ nb ∈ L, nb ∈ gr.neighbors cur) →
    AMid gr startPos goalPos cur h gc (L.foldl (astarRelax goalPos h cur) st) ∧
    (L.foldl (astarRelax goalPos h cur) st).expanded = st.expanded ∧
    (∀ nb ∈ L, ∃ u, (L.foldl (astarRelax goalPos h cur) st).s.g nb = some u ∧
      u ≤ gc + 1) ∧
    (∀ p u, st.s.g p = some u →
      ∃ w, (L.foldl (astarRelax goalPos h cur) st).s.g p = some w ∧ w ≤ u) ∧
    astarMeasure gr (L.foldl (astarRelax goalPos h cur) st) ≤ astarMeasure gr st := by
  intro L
  induction L with
  | nil =>
    intro st hinv _
    exact ⟨hinv, rfl, by simp, fun p u hp => ⟨u, hp, le_refl _⟩, le_refl _⟩
  | cons x t ih =>
    intro st hinv hsub
    obtain ⟨h1, h2, h3, h4, h5⟩ := astarRelax_step hinv hstart (hsub x (List.mem_cons_self x t))
    obtain ⟨g1, g2, g3, g4, g5⟩ := ih (astarRelax goalPos h cur st x) h1
      (fun nb hnb => hsub nb (List.mem_cons_of_mem x hnb))
    rw [List.foldl_cons]
    refine ⟨g1, g2.trans h2, ?_, ?_, le_trans g5 h5⟩
    · intro nb hnb
      rcases List.mem_cons.1 hnb with rfl | hmem
      · obtain ⟨u, hu, hule⟩ := h3
        obtain ⟨w, hw, hwle⟩ := g4 nb u hu
        exact ⟨w, hw, by omega⟩
      · exact g3 nb hmem
    · intro p u hp
      obtain ⟨w, hw, hwle⟩ := h4 p u hp
      obtain ⟨w2, hw2, hw2le⟩ := g4 p w hw
      exact ⟨w2, hw2, by omega⟩

/-- Popping an unsettled non-goal entry establishes the mid-expansion
invariant (with the popped cell's optimal distance) and pays for the pop
and the whole neighbour fold. -/
theorem astar_expand {gr : Grid} {startPos goalPos : Pos} {h : Heur} {st : AStarSt}
    {ent : Entry} {rest : List Entry}
    (inv : AInv gr startPos goalPos h st) (hstart : gr.inB startPos)
    (hpop : popMin st.heap = some (ent, rest)) (hexp : st.expanded ent.pos = none)
    (hg : ent.pos ≠ goalPos) :
    (∃ gc, AMid gr startPos goalPos ent.pos h gc
      { st with
        heap := rest
        expanded := upd st.expanded ent.pos (some (st.s.g ent.pos))
        s := { st.s with
               inOpen := upd st.s.inOpen ent.pos false,
               inClosed := upd st.s.inClosed ent.pos true }
        nodes := st.nodes + 1 }) ∧
    astarMeasure gr
      { st with
        heap := rest
        expanded := upd st.expanded ent.pos (some (st.s.g ent.pos))
        s := { st.s with
               inOpen := upd st.s.inOpen ent.pos false,
               inClosed := upd st.s.inClosed ent.pos true }
        nodes := st.nodes + 1 } + 2 ≤ astarMeasure gr st := by
  obtain ⟨gc, hv, hmin⟩ := astar_pop_opt inv hstart hpop hexp
  have hcurIn : gr.inB ent.pos := inv.heapIn ent (popMin_mem hpop)
  have hvisF : (fun p => (st.expanded p).isSome) ent.pos = false := by
    show (st.expanded ent.pos).isSome = false
    rw [hexp]
    rfl
  have hcard := @visitedSet_upd_card gr (fun p => (st.expanded p).isSome) ent.pos hcurIn hvisF
  constructor
  · refine ⟨gc, ?_⟩
    refine
      { startG := inv.startG
        startParent := inv.startParent
        heapIn := ?_
        heapKey := ?_
        gReach := inv.gReach
        gIn := inv.gIn
        gBound := inv.gBound
        pChain := inv.pChain
        parentNone := inv.parentNone
        expG := ?_
        expOpt := ?_
        openExact := ?_
        settledNb := ?_
        curG := hv
        curMin := hmin
        curExp := ?_
        goalNotExp := ?_
        nodesEq := ?_ }
    · dsimp only
      intro e he
      exact inv.heapIn e (popMin_rest_subset hpop e he)
    · dsimp only
      intro e he
      exact inv.heapKey e (popMin_rest_subset hpop e he)
    · dsimp only
      intro p r hp
      by_cases hpe : p = ent.pos
      · subst hpe
        rw [upd_same] at hp
        injection hp with hp
        exact hp.symm
      · rw [upd_ne _ _ hpe] at hp
        exact inv.expG p r hp
    · dsimp only
      intro p r hp
      by_cases hpe : p = ent.pos
      · subst hpe
        exact ⟨gc, hv, hmin⟩
      · rw [upd_ne _ _ hpe] at hp
        exact inv.expOpt p r hp
    · dsimp only
      intro p v hp hpexp
      have hpe : p ≠ ent.pos := by
        rintro rfl
        rw [upd_same] at hpexp
        exact absurd hpexp (by simp)
      rw [upd_ne _ _ hpe] at hpexp
      obtain ⟨e, he, hpos, hkey⟩ := inv.openExact p v hp hpexp
      refine ⟨e, popMin_mem_rest hpop he ?_, hpos, hkey⟩
      rintro rfl
      exact hpe hpos.symm
    · dsimp only
      intro p r hp hpne nb hnb
      rw [upd_ne _ _ hpne] at hp
      exact inv.settledNb p r hp nb hnb
    · dsimp only
      rw [upd_same, hv]
    · dsimp only
      rw [upd_ne _ _ (Ne.symm hg)]
      exact inv.goalNotExp
    · dsimp only
      rw [isSome_upd_fun, hcard, ← inv.nodesEq]
  · unfold astarMeasure
    dsimp only
    have hlen := popMin_length hpop
    have hkey : (∑ p ∈ gr.posFinset,
        (aPhi gr (st.s.g p) + (if upd st.s.inOpen ent.pos false p then 0 else 1) +
          (if ((upd st.expanded ent.pos (some (st.s.g ent.pos))) p).isSome then 0
            else 2))) + 1 ≤
        ∑ p ∈ gr.posFinset,
        (aPhi gr (st.s.g p) + (if st.s.inOpen p then 0 else 1) +
          (if (st.expanded p).isSome then 0 else 2)) := by
      apply sum_upd_le (Grid.mem_posFinset.2 hcurIn)
      · intro p hp hpe
        rw [upd_ne _ _ hpe, upd_ne _ _ hpe]
      · rw [upd_same, upd_same, hexp]
        simp only [Option.isSome_some, Option.isSome_none, Bool.false_eq_true, if_false]
        rw [if_pos trivial]
        split <;> omega
    omega

/-- A mid-expansion state in which every neighbour of the expanded cell
has been relaxed satisfies the top-of-loop invariant. -/
theorem AMid_to_AInv {gr : Grid} {startPos goalPos cur : Pos} {h : Heur} {gc : ℕ}
    {st : AStarSt} (m : AMid gr startPos goalPos cur h gc st)
    (hcur : ∀ nb ∈ gr.neighbors cur, ∃ u, st.s.g nb = some u ∧ u ≤ gc + 1) :
    AInv gr startPos goalPos h st :=
  { startG := m.startG
    startParent := m.startParent
    heapIn := m.heapIn
    heapKey := m.heapKey
    gReach := m.gReach
    gIn := m.gIn
    gBound := m.gBound
    pChain := m.pChain
    parentNone := m.parentNone
    expG := m.expG
    expOpt := m.expOpt
    openExact := m.openExact
    settledNb := by
      intro p r hp nb hnb
      by_cases hpe : p = cur
      · subst hpe
        obtain ⟨u, hu, hule⟩ := hcur nb hnb
        exact ⟨u, gc, hu, m.curMin, by omega⟩
      · exact m.settledNb p r hp hpe nb hnb
    goalNotExp := m.goalNotExp
    nodesEq := m.nodesEq }

/-- When the heap runs out, the settled set is exactly the reachable
region and the goal is unreachable. -/
theorem astar_exhaust {gr : Grid} {startPos goalPos : Pos} {h : Heur} {st : AStarSt}
    (inv : AInv gr startPos goalPos h st) (hstart : gr.inB startPos)
    (hheap : st.heap = []) :
    ¬ Reachable gr startPos goalPos ∧
    (visitedSet gr (fun p => (st.expanded p).isSome)).card =
      (regionSet gr startPos).card := by
  have hos : ∀ p v, st.s.g p = some v → (st.expanded p).isSome = true := by
    intro p v hp
    cases he : st.expanded p with
    | some r => rfl
    | none =>
      obtain ⟨e, hemem, _⟩ := inv.openExact p v hp he
      rw [hheap] at hemem
      exact absurd hemem (List.not_mem_nil e)
  have hsv : (st.expanded startPos).isSome = true := hos startPos 0 inv.startG
  have hcl : ∀ p, (st.expanded p).isSome = true →
      ∀ nb ∈ gr.neighbors p, (st.expanded nb).isSome = true := by
    intro p hp nb hnb
    cases he : st.expanded p with
    | none =>
      rw [he] at hp
      exact absurd hp (by simp)
    | some r =>
      obtain ⟨u, w, hu, _, _⟩ := inv.settledNb p r he nb hnb
      exact hos nb u hu
  have hset : visitedSet gr (fun p => (st.expanded p).isSome) = regionSet gr startPos := by
    ext p
    unfold visitedSet regionSet
    simp only [Finset.mem_filter]
    constructor
    · rintro ⟨hin, hp⟩
      have hp' : (st.expanded p).isSome = true := hp
      cases he : st.expanded p with
      | none =>
        rw [he] at hp'
        exact absurd hp' (by simp)
      | some r =>
        obtain ⟨v, hgv, hmv⟩ := inv.expOpt p r he
        refine ⟨hin, ?_⟩
        unfold mindist at hmv
        split at hmv
        next hex => exact hex
        next => exact absurd hmv (by simp)
    · rintro ⟨hin, hp⟩
      obtain ⟨n, _, hn⟩ := hp
      exact ⟨hin,
        @visited_closed_reach gr (fun q => (st.expanded q).isSome) startPos hsv hcl n p hn⟩
  refine ⟨?_, by rw [hset]⟩
  rintro ⟨n, hn⟩
  have hgv : (st.expanded goalPos).isSome = true :=
    @visited_closed_reach gr (fun q => (st.expanded q).isSome) startPos hsv hcl n goalPos hn
  rw [inv.goalNotExp] at hgv
  exact absurd hgv (by simp)

/-- The A* loop meets its contract from any invariant state, given fuel
above the termination measure. -/
theorem astarGo_spec {gr : Grid} {startPos goalPos : Pos} {h : Heur}
    (hstart : gr.inB startPos) :
    ∀ (fuel : ℕ) (st : AStarSt), AInv gr startPos goalPos h st →
    astarMeasure gr st < fuel →
    astarPost gr startPos goalPos (astarGo gr goalPos h fuel st) := by
  intro fuel
  induction fuel with
  | zero =>
    intro st _ hf
    omega
  | succ f ih =>
    intro st hinv hf
    cases hpop : popMin st.heap with
    | none =>
      rw [astarGo_none hpop]
      obtain ⟨hnr, hcard⟩ := astar_exhaust hinv hstart (popMin_eq_none.1 hpop)
      unfold astarPost
      right
      refine ⟨rfl, hnr, rfl, ?_⟩
      show st.nodes = (regionSet gr startPos).card
      rw [hinv.nodesEq]
      exact hcard
    | some pr =>
      obtain ⟨ent, rest⟩ := pr
      cases hexp : st.expanded ent.pos with
      | some r =>
        have hskip : (match st.expanded ent.pos with
            | none => false
            | some r2 => ogLeB r2 (st.s.g ent.pos)) = true := by
          rw [hexp]
          show ogLeB r (st.s.g ent.pos) = true
          rw [hinv.expG ent.pos r hexp]
          exact ogLeB_refl _
        rw [astarGo_skip hpop hskip]
        obtain ⟨hinv2, hm⟩ := astar_skip hinv hpop (by rw [hexp]; simp)
        exact ih _ hinv2 (by omega)
      | none =>
        have hskip : (match st.expanded ent.pos with
            | none => false
            | some r2 => ogLeB r2 (st.s.g ent.pos)) = false := by
          rw [hexp]
        by_cases hgoal : ent.pos = goalPos
        · rw [astarGo_goal hpop hskip hgoal]
          obtain ⟨v, hgv, hmv⟩ := astar_pop_opt hinv hstart hpop hexp
          rw [hgoal] at hgv hmv
          have hvle : v ≤ gr.size + 1 := hinv.gBound goalPos v hgv
          obtain ⟨l, heq, hlen, hhead, hlast, hch⟩ :=
            reconAux_spec gr
              { st.s with
                inOpen := upd st.s.inOpen ent.pos false,
                inClosed := upd st.s.inClosed ent.pos true } startPos
              (fun p q hpq => ⟨(hinv.pChain p q hpq).1, by
                obtain ⟨w, h1, h2, _⟩ := (hinv.pChain p q hpq).2
                exact ⟨w, h1, h2⟩⟩)
              (fun p w hp hw => hinv.parentNone p w hp hw)
              v goalPos [] (gr.size + 1) hgv hvle
          rw [List.append_nil] at heq
          unfold astarPost reconstructPath
          dsimp only
          left
          rw [heq, markPath_g]
          exact ⟨rfl, ⟨v, hinv.gReach goalPos v hgv⟩, v, hgv, hgv, hlen,
            ⟨hhead, hlast, hch⟩, hmv⟩
        · rw [astarGo_expand hpop hskip hgoal]
          obtain ⟨⟨gc, hmid⟩, hm⟩ := astar_expand hinv hstart hpop hexp hgoal
          obtain ⟨hmid2, _, hnbs, _, hm2⟩ :=
            astarRelax_fold hstart (gr.neighbors ent.pos) _ hmid (fun nb hnb => hnb)
          exact ih _ (AMid_to_AInv hmid2 hnbs) (by omega)

theorem astarMeasure_lt_fuel (gr : Grid) (st : AStarSt) (hlen : st.heap.length ≤ 1) :
    astarMeasure gr st < searchFuel gr := by
  unfold astarMeasure searchFuel
  have hb : ∀ p ∈ gr.posFinset,
      aPhi gr (st.s.g p) + (if st.s.inOpen p then 0 else 1) +
        (if (st.expanded p).isSome then 0 else 2) ≤ gr.size + 6 := by
    intro p _
    have h1 := aPhi_le gr (st.s.g p)
    have h2 : (if st.s.inOpen p then 0 else 1) ≤ 1 := by
      split <;> omega
    have h3 : (if (st.expanded p).isSome then 0 else 2) ≤ 2 := by
      split <;> omega
    omega
  have hs := Finset.sum_le_sum hb
  rw [Finset.sum_const, smul_eq_mul, gr.card_posFinset] at hs
  have hexp : (gr.size + 2) * (gr.size + 5) = gr.size * (gr.size + 6) + gr.size + 10 := by
    ring
  omega

/-- The initial state of `astar` from a reset scratch state satisfies
the loop invariant. -/
theorem astarInit_inv {gr : Grid} {startPos goalPos : Pos} {h : Heur} {s : SState}
    (hstart : gr.inB startPos) (hg : ∀ p, s.g p = none)
    (hpar : ∀ p, s.parent p = none) :
    AInv gr startPos goalPos h (astarInit s startPos goalPos h) := by
  unfold astarInit
  refine
    { startG := ?_
      startParent := ?_
      heapIn := ?_
      heapKey := ?_
      gReach := ?_
      gIn := ?_
      gBound := ?_
      pChain := ?_
      parentNone := ?_
      expG := ?_
      expOpt := ?_
      openExact := ?_
      settledNb := ?_
      goalNotExp := ?_
      nodesEq := ?_ }
  · dsimp only
    exact upd_same _ _ _
  · dsimp only
    exact hpar startPos
  · dsimp only
    intro e he
    simp only [List.mem_singleton] at he
    subst he
    exact hstart
  · dsimp only
    intro e he
    simp only [List.mem_singleton] at he
    subst he
    exact ⟨0, upd_same _ _ _, le_refl _, rfl⟩
  · dsimp only
    intro p v hp
    by_cases hpe : p = startPos
    · subst hpe
      rw [upd_same] at hp
      injection hp with hp
      subst hp
      exact reachN_refl gr p
    · rw [upd_ne _ _ hpe, hg p] at hp
      exact absurd hp (by simp)
  · dsimp only
    intro p v hp
    by_cases hpe : p = startPos
    · subst hpe
      exact hstart
    · rw [upd_ne _ _ hpe, hg p] at hp
      exact absurd hp (by simp)
  · dsimp only
    intro p v hp
    by_cases hpe : p = startPos
    · subst hpe
      rw [upd_same] at hp
      injection hp with hp
      omega
    · rw [upd_ne _ _ hpe, hg p] at hp
      exact absurd hp (by simp)
  · dsimp only
    intro p q hpq
    rw [hpar p] at hpq
    exact absurd hpq (by simp)
  · dsimp only
    intro p v hp hgp
    by_cases hpe : p = startPos
    · subst hpe
      rw [upd_same] at hgp
      injection hgp with hgp
      exact ⟨rfl, hgp.symm⟩
    · rw [upd_ne _ _ hpe, hg p] at hgp
      exact absurd hgp (by simp)
  · dsimp only
    intro p r hp
    exact absurd hp (by simp)
  · dsimp only
    intro p r hp
    exact absurd hp (by simp)
  · dsimp only
    intro p v hp _
    by_cases hpe : p = startPos
    · subst hpe
      rw [upd_same] at hp
      injection hp with hp
      subst hp
      exact ⟨⟨(0, hsq h p goalPos), 0, p⟩, List.mem_singleton.2 rfl, rfl, rfl⟩
    · rw [upd_ne _ _ hpe, hg p] at hp
      exact absurd hp (by simp)
  · dsimp only
    intro p r hp
    exact absurd hp (by simp)
  · dsimp only
  · dsimp only
    unfold visitedSet
    simp

/-- `astar` from a reset scratch state meets the search contract. -/
theorem astar_spec {gr : Grid} {startPos goalPos : Pos} {h : Heur} {s : SState}
    (hstart : gr.inB startPos) (hg : ∀ p, s.g p = none)
    (hpar : ∀ p, s.parent p = none) :
    astarPost gr startPos goalPos (astar gr s startPos goalPos h) := by
  unfold astar
  exact astarGo_spec hstart (searchFuel gr) _ (astarInit_inv hstart hg hpar)
    (astarMeasure_lt_fuel gr _ (le_refl 1))

/-! ### Route walkability -/

theorem chain_walkable {g : Grid} : ∀ (l : List Pos) (x : Pos),
    List.Chain' (fun p q => q ∈ g.neighbors p) (x :: l) → g.walkable x →
    ∀ p ∈ x :: l, g.walkable p := by
  intro l
  induction l with
  | nil =>
    intro x _ hx p hp
    rw [List.mem_singleton] at hp
    subst hp
    exact hx
  | cons y t ih =>
    intro x hch hx p hp
    rw [List.chain'_cons] at hch
    obtain ⟨hxy, hch2⟩ := hch
    rcases List.mem_cons.1 hp with rfl | hp2
    · exact hx
    · exact ih y hch2 (Grid.neighbors_walkable hxy) p hp2

theorem route_walkable {g : Grid} {a b : Pos} {l : List Pos}
    (hv : ValidRoute g a b l) (ha : g.walkable a) : ∀ p ∈ l, g.walkable p := by
  obtain ⟨hhead, _, hchain⟩ := hv
  cases l with
  | nil => exact absurd hhead (by simp)
  | cons x t =>
    rw [List.head?_cons] at hhead
    injection hhead with hhead
    subst hhead
    exact chain_walkable t x hchain ha

theorem Grid.WF.start_walkable {g : Grid} (hwf : g.WF) : g.walkable g.start := by
  intro hc
  rw [hwf.kindStart] at hc
  exact absurd hc (by decide)

/-! ### C1: A* optimality -/

/-- **C1**: on every well-formed grid on which the goal is reachable
from the start, and for both heuristics, `astar` run after
`resetSearchState` returns `found = true` with `pathCost` equal to the
true shortest 4-connected path length from start to goal. -/
theorem astar_optimal (gr : Grid) (σ : SState) (h : Heur) (hwf : gr.WF)
    (hreach : Reachable gr gr.start gr.goal) :
    (astar gr (gr.resetSearchState σ) gr.start gr.goal h).1.found = true ∧
    ∃ m, mindist gr gr.start gr.goal = some m ∧
      (astar gr (gr.resetSearchState σ) gr.start gr.goal h).1.pathCost = some m := by
  have hpost := @astar_spec gr gr.start gr.goal h (gr.resetSearchState σ)
    hwf.startIn (fun p => rfl) (fun p => rfl)
  rcases hpost with ⟨hf, _, v, _, hcost, _, _, hmv⟩ | ⟨_, hnr, _, _⟩
  · exact ⟨hf, v, hmv, hcost⟩
  · exact absurd hreach hnr

/-- Witness for C1 on the empty 2×2 grid with the Manhattan heuristic. -/
theorem astar_optimal_witness :
    (astar g22 (g22.resetSearchState initS) g22.start g22.goal .manhattan).1.found = true ∧
    ∃ m, mindist g22 g22.start g22.goal = some m ∧
      (astar g22 (g22.resetSearchState initS) g22.start g22.goal .manhattan).1.pathCost
        = some m :=
  astar_optimal g22 initS .manhattan ⟨by decide, by decide, by decide, by decide⟩
    ⟨2, by decide⟩

/-! ### C3: path cost matches path length and final `g` -/

/-- **C3**: every search (either algorithm, either heuristic, run after
`resetSearchState`) that returns `found = true` reports `pathCost` equal
to the number of steps along the returned path (its length minus one)
and equal to the goal cell's final `g` value. -/
theorem search_cost_eq_path_length (gr : Grid) (σ : SState) (algo : Algo) (h : Heur)
    (hwf : gr.WF)
    (hfound : (searchAlgo algo gr (gr.resetSearchState σ) gr.start gr.goal h).1.found
      = true) :
    (searchAlgo algo gr (gr.resetSearchState σ) gr.start gr.goal h).1.pathCost =
      some ((searchAlgo algo gr (gr.resetSearchState σ) gr.start gr.goal h).1.path.length
        - 1) ∧
    (searchAlgo algo gr (gr.resetSearchState σ) gr.start gr.goal h).2.g gr.goal =
      (searchAlgo algo gr (gr.resetSearchState σ) gr.start gr.goal h).1.pathCost := by
  cases algo with
  | astarSearch =>
    have hpost := @astar_spec gr gr.start gr.goal h (gr.resetSearchState σ)
      hwf.startIn (fun p => rfl) (fun p => rfl)
    rcases hpost with ⟨_, _, v, hg, hcost, hlen, _, _⟩ | ⟨hnf, _, _, _⟩
    · constructor
      · show (astar gr (gr.resetSearchState σ) gr.start gr.goal h).1.pathCost =
          some ((astar gr (gr.resetSearchState σ) gr.start gr.goal h).1.path.length - 1)
        rw [hcost, hlen]
        congr 1
      · show (astar gr (gr.resetSearchState σ) gr.start gr.goal h).2.g gr.goal =
          (astar gr (gr.resetSearchState σ) gr.start gr.goal h).1.pathCost
        rw [hcost, hg]
    · rw [show (searchAlgo Algo.astarSearch gr (gr.resetSearchState σ) gr.start gr.goal
          h).1.found = (astar gr (gr.resetSearchState σ) gr.start gr.goal h).1.found
          from rfl, hnf] at hfound
      exact absurd hfound (by simp)
  | greedyBFS =>
    have hpost := @greedyBfs_spec gr gr.start gr.goal h (gr.resetSearchState σ)
      hwf.startIn (fun p => rfl) (fun p => rfl) (fun p => rfl)
    rcases hpost with ⟨_, _, v, hg, hcost, hlen, _⟩ | ⟨hnf, _, _, _⟩
    · constructor
      · show (greedyBfs gr (gr.resetSearchState σ) gr.start gr.goal h).1.pathCost =
          some ((greedyBfs gr (gr.resetSearchState σ) gr.start gr.goal
            h).1.path.length - 1)
        rw [hcost, hlen]
        congr 1
      · show (greedyBfs gr (gr.resetSearchState σ) gr.start gr.goal h).2.g gr.goal =
          (greedyBfs gr (gr.resetSearchState σ) gr.start gr.goal h).1.pathCost
        rw [hcost, hg]
    · rw [show (searchAlgo Algo.greedyBFS gr (gr.resetSearchState σ) gr.start gr.goal
          h).1.found = (greedyBfs gr (gr.resetSearchState σ) gr.start gr.goal
          h).1.found from rfl, hnf] at hfound
      exact absurd hfound (by simp)

/-- Witness for C3: Greedy BFS on the empty 2×2 grid. -/
theorem search_cost_eq_path_length_witness :
    (searchAlgo Algo.greedyBFS g22 (g22.resetSearchState initS) g22.start g22.goal
      .manhattan).1.pathCost =
      some ((searchAlgo Algo.greedyBFS g22 (g22.resetSearchState initS) g22.start
        g22.goal .manhattan).1.path.length - 1) ∧
    (searchAlgo Algo.greedyBFS g22 (g22.resetSearchState initS) g22.start g22.goal
      .manhattan).2.g g22.goal =
      (searchAlgo Algo.greedyBFS g22 (g22.resetSearchState initS) g22.start g22.goal
        .manhattan).1.pathCost :=
  search_cost_eq_path_length g22 initS Algo.greedyBFS .manhattan
    ⟨by decide, by decide, by decide, by decide⟩ (by decide)

/-! ### C4: Greedy BFS never returns a shorter path than A* -/

/-- **C4**: on every well-formed grid (and either heuristic), the path
returned by Greedy BFS is never shorter than the path returned by A*
(both run after `resetSearchState`); and on the 3×5 detour grid with the
Manhattan heuristic Greedy BFS's path is strictly longer. -/
theorem greedy_path_not_shorter :
    (∀ (gr : Grid) (σ : SState) (h : Heur), gr.WF →
      (astar gr (gr.resetSearchState σ) gr.start gr.goal h).1.path.length ≤
      (greedyBfs gr (gr.resetSearchState σ) gr.start gr.goal h).1.path.length) ∧
    (astar detourGrid (detourGrid.resetSearchState initS) detourGrid.start
        detourGrid.goal .manhattan).1.path.length <
      (greedyBfs detourGrid (detourGrid.resetSearchState initS) detourGrid.start
        detourGrid.goal .manhattan).1.path.length := by
  constructor
  · intro gr σ h hwf
    have hpa := @astar_spec gr gr.start gr.goal h (gr.resetSearchState σ)
      hwf.startIn (fun p => rfl) (fun p => rfl)
    have hpg := @greedyBfs_spec gr gr.start gr.goal h (gr.resetSearchState σ)
      hwf.startIn (fun p => rfl) (fun p => rfl) (fun p => rfl)
    rcases hpa with ⟨_, _, va, _, _, hlena, _, hmva⟩ | ⟨_, hnra, hpatha, _⟩
    · rcases hpg with ⟨_, _, vg, _, _, hleng, hvrg⟩ | ⟨_, hnrg, _, _⟩
      · have hrg : reachN gr vg gr.start gr.goal :=
          reachN_iff_route.2 ⟨_, hleng, hvrg⟩
        have hmin := (mindist_spec hwf.startIn hmva).2 vg hrg
        omega
      · exact absurd ⟨va, (mindist_spec hwf.startIn hmva).1⟩ hnrg
    · rcases hpg with ⟨_, hrg, _⟩ | ⟨_, _, hpathg, _⟩
      · exact absurd hrg hnra
      · rw [hpatha, hpathg]
  · decide

/-- Witness for C4's universal part on the empty 2×2 grid. -/
theorem greedy_path_not_shorter_witness :
    (astar g22 (g22.resetSearchState initS) g22.start g22.goal .manhattan).1.path.length ≤
    (greedyBfs g22 (g22.resetSearchState initS) g22.start g22.goal
      .manhattan).1.path.length :=
  greedy_path_not_shorter.1 g22 initS .manhattan ⟨by decide, by decide, by decide, by decide⟩

/-! ### C9: behaviour when the goal is unreachable -/

/-- **C9**: on every well-formed grid whose goal is unreachable from the
start (in particular when the start is walled in), both algorithms (run
after `resetSearchState`) return `found = false` with an empty path and
`nodesVisited` equal to the number of cells reachable from the start
(the enclosed region, start included). -/
theorem search_unreachable_spec (gr : Grid) (σ : SState) (algo : Algo) (h : Heur)
    (hwf : gr.WF) (hnr : ¬ Reachable gr gr.start gr.goal) :
    (searchAlgo algo gr (gr.resetSearchState σ) gr.start gr.goal h).1.found = false ∧
    (searchAlgo algo gr (gr.resetSearchState σ) gr.start gr.goal h).1.path = [] ∧
    (searchAlgo algo gr (gr.resetSearchState σ) gr.start gr.goal h).1.nodesVisited =
      (regionSet gr gr.start).card := by
  cases algo with
  | astarSearch =>
    have hpost := @astar_spec gr gr.start gr.goal h (gr.resetSearchState σ)
      hwf.startIn (fun p => rfl) (fun p => rfl)
    rcases hpost with ⟨_, hr, _⟩ | ⟨hnf, _, hpath, hnodes⟩
    · exact absurd hr hnr
    · exact ⟨hnf, hpath, hnodes⟩
  | greedyBFS =>
    have hpost := @greedyBfs_spec gr gr.start gr.goal h (gr.resetSearchState σ)
      hwf.startIn (fun p => rfl) (fun p => rfl) (fun p => rfl)
    rcases hpost with ⟨_, hr, _⟩ | ⟨hnf, _, hpath, hnodes⟩
    · exact absurd hr hnr
    · exact ⟨hnf, hpath, hnodes⟩

/-- Witness for C9 on the 3×3 grid whose start is walled in, under A*. -/
theorem search_unreachable_spec_witness :
    (searchAlgo Algo.astarSearch enclosedGrid (enclosedGrid.resetSearchState initS)
      enclosedGrid.start enclosedGrid.goal .manhattan).1.found = false ∧
    (searchAlgo Algo.astarSearch enclosedGrid (enclosedGrid.resetSearchState initS)
      enclosedGrid.start enclosedGrid.goal .manhattan).1.path = [] ∧
    (searchAlgo Algo.astarSearch enclosedGrid (enclosedGrid.resetSearchState initS)
      enclosedGrid.start enclosedGrid.goal .manhattan).1.nodesVisited =
      (regionSet enclosedGrid enclosedGrid.start).card :=
  search_unreachable_spec enclosedGrid initS Algo.astarSearch .manhattan
    ⟨by decide, by decide, by decide, by decide⟩
    (fun hr => absurd ((reachable_iff_reachableB (by decide)).1 hr) (by decide))

/-! ### C10: found paths are valid routes -/

/-- **C10**: every search (either algorithm, either heuristic, run after
`resetSearchState`) that returns `found = true` returns a path that
starts at the origin, ends at the goal, moves between orthogonally
adjacent cells at every step, and contains no wall cell. -/
theorem search_path_valid_route (gr : Grid) (σ : SState) (algo : Algo) (h : Heur)
    (hwf : gr.WF)
    (hfound : (searchAlgo algo gr (gr.resetSearchState σ) gr.start gr.goal h).1.found
      = true) :
    ValidRoute gr gr.start gr.goal
      (searchAlgo algo gr (gr.resetSearchState σ) gr.start gr.goal h).1.path ∧
    ∀ p ∈ (searchAlgo algo gr (gr.resetSearchState σ) gr.start gr.goal h).1.path,
      gr.walkable p := by
  cases algo with
  | astarSearch =>
    have hpost := @astar_spec gr gr.start gr.goal h (gr.resetSearchState σ)
      hwf.startIn (fun p => rfl) (fun p => rfl)
    rcases hpost with ⟨_, _, v, _, _, _, hvr, _⟩ | ⟨hnf, _, _, _⟩
    · exact ⟨hvr, route_walkable hvr hwf.start_walkable⟩
    · rw [show (searchAlgo Algo.astarSearch gr (gr.resetSearchState σ) gr.start gr.goal
          h).1.found = (astar gr (gr.resetSearchState σ) gr.start gr.goal h).1.found
          from rfl, hnf] at hfound
      exact absurd hfound (by simp)
  | greedyBFS =>
    have hpost := @greedyBfs_spec gr gr.start gr.goal h (gr.resetSearchState σ)
      hwf.startIn (fun p => rfl) (fun p => rfl) (fun p => rfl)
    rcases hpost with ⟨_, _, v, _, _, _, hvr⟩ | ⟨hnf, _, _, _⟩
    · exact ⟨hvr, route_walkable hvr hwf.start_walkable⟩
    · rw [show (searchAlgo Algo.greedyBFS gr (gr.resetSearchState σ) gr.start gr.goal
          h).1.found = (greedyBfs gr (gr.resetSearchState σ) gr.start gr.goal
          h).1.found from rfl, hnf] at hfound
      exact absurd hfound (by simp)

/-- Witness for C10: A* on the empty 2×2 grid. -/
theorem search_path_valid_route_witness :
    ValidRoute g22 g22.start g22.goal
      (searchAlgo Algo.astarSearch g22 (g22.resetSearchState initS) g22.start g22.goal
        .manhattan).1.path ∧
    ∀ p ∈ (searchAlgo Algo.astarSearch g22 (g22.resetSearchState initS) g22.start
      g22.goal .manhattan).1.path, g22.walkable p :=
  search_path_valid_route g22 initS Algo.astarSearch .manhattan
    ⟨by decide, by decide, by decide, by decide⟩ (by decide)

/-! ### C2: the dynamic-replanning invariant -/

/-- `spawnRandomObstacle` never changes the kind of a cell marked
`onPath`. -/
theorem Grid.spawn_kind_onPath {g : Grid} {s : SState} {k : ℕ} {q : Pos}
    (h : s.onPath q = true) :
    (g.spawnRandomObstacle s k).1.kind q = g.kind q := by
  unfold Grid.spawnRandomObstacle
  by_cases hnil : g.spawnCandidates s = []
  · rw [dif_pos hnil]
  · rw [dif_neg hnil]
    simp only
    have hcmem : (g.spawnCandidates s).get
        ⟨k % (g.spawnCandidates s).length,
          Nat.mod_lt _ (List.length_pos.2 hnil)⟩ ∈ g.spawnCandidates s :=
      List.get_mem _ _ _
    have hcp := (Grid.mem_spawnCandidates.1 hcmem).2.2
    have hne : q ≠ (g.spawnCandidates s).get
        ⟨k % (g.spawnCandidates s).length,
          Nat.mod_lt _ (List.length_pos.2 hnil)⟩ := by
      rintro rfl
      rw [h] at hcp
      exact absurd hcp (by simp)
    exact upd_ne _ _ hne

/-- One coordinator event preserves "every path cell is marked `onPath`
in the scratch state, and the unconsumed path suffix is wall-free". -/
theorem dynOp_preserves (algo : Algo) (h : Heur) (st : AppState) (op : DynOp)
    (hmark : ∀ c ∈ st.agent.path, st.s.onPath c = true)
    (hclear : st.agent.isPathBlocked st.grid = false) :
    (∀ c ∈ (applyDynOp algo h st op).agent.path,
        (applyDynOp algo h st op).s.onPath c = true) ∧
    (applyDynOp algo h st op).agent.isPathBlocked (applyDynOp algo h st op).grid
      = false := by
  cases op with
  | spawnOp k =>
    refine ⟨hmark, ?_⟩
    show ((st.agent.path.drop (st.agent.pathIndex + 1)).any fun c =>
        decide ((st.grid.spawnRandomObstacle st.s k).1.kind c = CellKind.wall)) = false
    unfold Agent.isPathBlocked at hclear
    rw [List.any_eq_false] at hclear ⊢
    intro c hc
    have hcp : c ∈ st.agent.path := List.mem_of_mem_drop hc
    rw [Grid.spawn_kind_onPath (hmark c hcp)]
    exact hclear c hc
  | replanIfBlocked =>
    have hred : applyDynOp algo h st .replanIfBlocked = st := by
      show (if st.agent.isPathBlocked st.grid then doReplan algo h st else st) = st
      rw [hclear]
      simp
    rw [hred]
    exact ⟨hmark, hclear⟩

/-- **C2**: after any sequence of coordinator events (random obstacle
spawns and obstacle-check-plus-replan calls) applied while the agent
holds a path whose cells are marked `onPath`, the agent's path suffix
beyond its current index contains no wall cell. -/
theorem replan_suffix_never_walled (algo : Algo) (h : Heur) :
    ∀ (ops : List DynOp) (st : AppState),
    (∀ c ∈ st.agent.path, st.s.onPath c = true) →
    st.agent.isPathBlocked st.grid = false →
    ∀ c ∈ (applyDynOps algo h st ops).agent.path.drop
        ((applyDynOps algo h st ops).agent.pathIndex + 1),
      (applyDynOps algo h st ops).grid.kind c ≠ CellKind.wall := by
  intro ops
  induction ops with
  | nil =>
    intro st _ hclear c hc
    unfold Agent.isPathBlocked at hclear
    rw [List.any_eq_false] at hclear
    have := hclear c hc
    simpa using this
  | cons op t ih =>
    intro st hmark hclear
    obtain ⟨h1, h2⟩ := dynOp_preserves algo h st op hmark hclear
    exact ih _ h1 h2

/-- Witness for C2: the 2×2 grid, an agent on the diagonal path, one
random spawn followed by one obstacle check, probed at the first suffix
cell. -/
theorem replan_suffix_never_walled_witness :
    (applyDynOps Algo.astarSearch Heur.manhattan
        ⟨g22, markPath (g22.resetSearchState initS) [(0, 0), (0, 1), (1, 1)],
          Agent.reset.setPath [(0, 0), (0, 1), (1, 1)]⟩
        [DynOp.spawnOp 0, DynOp.replanIfBlocked]).grid.kind (0, 1) ≠ CellKind.wall :=
  replan_suffix_never_walled Algo.astarSearch Heur.manhattan
    [DynOp.spawnOp 0, DynOp.replanIfBlocked]
    ⟨g22, markPath (g22.resetSearchState initS) [(0, 0), (0, 1), (1, 1)],
      Agent.reset.setPath [(0, 0), (0, 1), (1, 1)]⟩
    (by decide) (by decide) (0, 1) (by decide)

end PathSpec
